import Mathlib

/-!
Verification development for the antd-lsp design-token engine.

The definitions below are a shallow embedding of the token scanner
(`scanner.ts`), the position-resolution utilities (`util.ts`) and the
language-server query handlers (`server.ts`, class `AntdLs`) of the
current revision of the repository.  Pure data is modelled directly;
the TypeScript syntax tree is modelled by an inductive type whose
constructors carry exactly the fields the extractors consult
(cooked text, raw source text, member lists, source coordinates).
-/

namespace AntdLsp

/-- LSP position: zero-based line and character, as in
`vscode-languageserver`'s `Position`. -/
structure Pos where
  line : Nat
  character : Nat
deriving DecidableEq, Repr

/-- The `source` field of `TokenData` in `scanner.ts`:
`'configProvider' | 'useToken' | 'getToken' | 'themeConfig' | 'json' | 'css'`. -/
inductive Source where
  | configProvider
  | useToken
  | getToken
  | themeConfig
  | json
  | css
deriving DecidableEq, Repr

/-- `TokenData` from `scanner.ts`: uri, value, position, source and the
optional context string. -/
structure TokenData where
  uri : String
  value : String
  position : Pos
  source : Source
  context : Option String
deriving DecidableEq, Repr

/-- `TokenIndex = Map<TokenName, TokenData[]>`, modelled as an
association list in key-insertion order (JS `Map` iterates keys in
insertion order and keeps keys unique). -/
abbrev TokenIndex := List (String × List TokenData)

/-- `index.get(name)`: the list stored under `name`, if present. -/
def idxGet (idx : TokenIndex) (name : String) : Option (List TokenData) :=
  match idx with
  | [] => none
  | (k, v) :: rest => if k = name then some v else idxGet rest name

/-- `index.set(name, v)` on a map that already contains `name` updates the
entry in place; on a fresh key it appends the entry (JS `Map` insertion
order). -/
def idxSet (idx : TokenIndex) (name : String) (v : List TokenData) : TokenIndex :=
  match idx with
  | [] => [(name, v)]
  | (k, w) :: rest => if k = name then (name, v) :: rest else (k, w) :: idxSet rest name v

/-- `addTokenToIndex` from `scanner.ts`:
`if (!index.has(name)) index.set(name, []); index.get(name)!.push(data)` —
i.e. the new `TokenData` is appended to the (possibly fresh) list for
`name`, never replacing earlier entries. -/
def addTokenToIndex (idx : TokenIndex) (name : String) (data : TokenData) : TokenIndex :=
  match idxGet idx name with
  | some l => idxSet idx name (l ++ [data])
  | none => idx ++ [(name, [data])]

/-- All `TokenData` stored anywhere in the index. -/
def idxDatas (idx : TokenIndex) : List TokenData :=
  idx.flatMap (fun p => p.2)

theorem idxGet_idxSet_self (idx : TokenIndex) (n : String) (v : List TokenData) :
    idxGet (idxSet idx n v) n = some v := by
  induction idx with
  | nil => simp [idxSet, idxGet]
  | cons hd tl ih =>
      obtain ⟨k, w⟩ := hd
      by_cases h : k = n <;> simp [idxSet, idxGet, h, ih]

theorem idxGet_idxSet_other (idx : TokenIndex) (n m : String) (v : List TokenData)
    (hnm : m ≠ n) : idxGet (idxSet idx n v) m = idxGet idx m := by
  induction idx with
  | nil =>
      have : ¬ n = m := fun h => hnm h.symm
      simp [idxSet, idxGet, this]
  | cons hd tl ih =>
      obtain ⟨k, w⟩ := hd
      by_cases h : k = n
      · subst h
        have : ¬ k = m := fun h => hnm h.symm
        simp [idxSet, idxGet, this]
      · simp [idxSet, idxGet, h, ih]

theorem idxGet_append_new (idx : TokenIndex) (n : String) (l : List TokenData)
    (h : idxGet idx n = none) : idxGet (idx ++ [(n, l)]) n = some l := by
  induction idx with
  | nil => simp [idxGet]
  | cons hd tl ih =>
      obtain ⟨k, w⟩ := hd
      by_cases hk : k = n
      · simp [idxGet, hk] at h
      · simp [idxGet, hk] at h ⊢
        exact ih h

theorem idxGet_append_other (idx : TokenIndex) (n m : String) (l : List TokenData)
    (hnm : m ≠ n) : idxGet (idx ++ [(n, l)]) m = idxGet idx m := by
  induction idx with
  | nil =>
      have : ¬ n = m := fun h => hnm h.symm
      simp [idxGet, this]
  | cons hd tl ih =>
      obtain ⟨k, w⟩ := hd
      by_cases hk : k = m <;> simp [idxGet, hk, ih]

/-- Appending via `addTokenToIndex` extends the list stored under the
name by exactly the new entry. -/
theorem idxGet_addTokenToIndex_self (idx : TokenIndex) (n : String) (d : TokenData) :
    idxGet (addTokenToIndex idx n d) n = some (((idxGet idx n).getD []) ++ [d]) := by
  unfold addTokenToIndex
  cases h : idxGet idx n with
  | some l => simpa [h] using idxGet_idxSet_self idx n (l ++ [d])
  | none => simpa [h] using idxGet_append_new idx n [d] h

/-- `addTokenToIndex` leaves every other name's list untouched. -/
theorem idxGet_addTokenToIndex_other (idx : TokenIndex) (n m : String) (d : TokenData)
    (hnm : m ≠ n) : idxGet (addTokenToIndex idx n d) m = idxGet idx m := by
  unfold addTokenToIndex
  cases h : idxGet idx n with
  | some l => exact idxGet_idxSet_other idx n m (l ++ [d]) hnm
  | none => exact idxGet_append_other idx n m [d] hnm

/-! ## String primitives

Character-list implementations of the JS string operations the source
uses (`endsWith`, `startsWith`, `includes`, `split`, `join`,
`toLowerCase`, `trim`), so that every definition evaluates by kernel
reduction.  All token names involved are ASCII, where JS UTF-16 indices
and Lean character indices agree. -/

def strEndsWith (s t : String) : Bool := t.data.isSuffixOf s.data

def strStartsWith (s t : String) : Bool := t.data.isPrefixOf s.data

/-- Does `t` occur as a contiguous substring of `s` (JS `includes`)? -/
def charsContain (s t : List Char) : Bool :=
  match s with
  | [] => t.isEmpty
  | _ :: rest => t.isPrefixOf s || charsContain rest t

def strIncludes (s t : String) : Bool := charsContain s.data t.data

def splitOnCharAux (sep : Char) (cur : List Char) : List Char → List String
  | [] => [String.mk cur.reverse]
  | c :: rest =>
      if c = sep then String.mk cur.reverse :: splitOnCharAux sep [] rest
      else splitOnCharAux sep (c :: cur) rest

/-- JS `s.split(sep)` for a one-character separator. -/
def splitOnChar (sep : Char) (s : String) : List String :=
  splitOnCharAux sep [] s.data

/-- JS `Array.prototype.join(sep)`. -/
def joinSep (sep : String) : List String → String
  | [] => ""
  | [x] => x
  | x :: y :: rest => x ++ sep ++ joinSep sep (y :: rest)

def asciiLower (c : Char) : Char :=
  if 'A' ≤ c ∧ c ≤ 'Z' then Char.ofNat (c.toNat + 32) else c

/-- JS `toLowerCase` on the ASCII range. -/
def strToLower (s : String) : String := String.mk (s.data.map asciiLower)

/-- JS `trim`. -/
def strTrim (s : String) : String :=
  String.mk ((s.data.dropWhile Char.isWhitespace).reverse.dropWhile Char.isWhitespace).reverse

/-! ## Token-name predicates (`scanner.ts`) -/

/-- The fixed `commonAntdTokens` set of `scanner.ts`. -/
def commonAntdTokens : List String :=
  ["colorPrimary", "colorSuccess", "colorWarning", "colorError", "colorInfo",
   "colorTextBase", "colorBgBase", "colorText", "colorTextSecondary",
   "borderRadius", "borderRadiusLG", "borderRadiusSM", "borderRadiusXS",
   "fontSize", "fontSizeLG", "fontSizeSM", "fontSizeXL",
   "lineHeight", "lineHeightLG", "lineHeightSM",
   "spacing", "spacingXS", "spacingSM", "spacingLG", "spacingXL",
   "controlHeight", "controlHeightLG", "controlHeightSM",
   "motionDurationSlow", "motionDurationMid", "motionDurationFast"]

/-- The family-prefix list of `isLikelyTokenName`. -/
def familyPrefixes : List String :=
  ["color", "font", "line", "border", "spacing", "control", "motion", "size"]

/-- The state-word list of `isLikelyTokenName`. -/
def stateWords : List String :=
  ["primary", "secondary", "success", "warning", "error", "info"]

/-- `isLikelyTokenName` from `scanner.ts`: the key starts with a family
member followed by a letter (`/[A-Za-z]/`), or its lower-casing contains a
state word. -/
def isLikelyTokenName (name : String) : Bool :=
  let pMatch := familyPrefixes.any (fun p =>
    strStartsWith name p && decide (p.length < name.length) &&
      (match name.toList.get? p.length with
       | some c => c.isAlpha
       | none => false))
  let sMatch := stateWords.any (fun st => strIncludes (strToLower name) st)
  pMatch || sMatch

/-- The shared acceptance test
`commonAntdTokens.has(key) || isLikelyTokenName(key)`. -/
def acceptedTokenName (k : String) : Bool :=
  commonAntdTokens.any (fun s => decide (s = k)) || isLikelyTokenName k

/-! ## TypeScript syntax-tree model

An error-tolerant parse tree as consumed by the extractors and the local
resolver.  Constructors carry the fields the source reads off the
`typescript` / `ts-morph` nodes: `text` is the cooked `.text` property of a
literal (string value without quotes, escapes interpreted), `raw` is
`getText()` (the verbatim source slice), `namePos` is
`getLineAndCharacterOfPosition(name.getStart())`, `initLine` is the
zero-based line on which the initializer starts (ts-morph
`getStartLinePos`/`getLineAndColumnAtPos` yields that line with column 1,
stored as `(line-1, 0)`), and `startOff`/`stopOff` are `getStart()` /
`getEnd()` offsets.  Only identifier-named variable declarations and
property assignments are distinguished; every other node shape is
`otherNode` with its children.  `hookBindingDecl` models
`const { token, ... } = useToken()` / `getToken()` destructuring
declarations. -/

mutual
inductive Expr where
  | stringLit (text raw : String)
  | numericLit (text raw : String)
  | identExpr (name : String)
  | objectLit (members : List Member) (raw : String)
  | propAccess (obj : Expr) (name : String) (startOff stopOff : Nat) (raw : String)
  | jsxElement (tag : String) (attrs : List JsxAttr) (children : List Expr) (raw : String)
  | jsxExprNode (inner : Option Expr) (startOff stopOff : Nat)
  | templateNode (spans : List TemplateSpan) (raw : String)
  | varDecl (name : String) (typeRef : Option String) (init : Option Expr)
  | hookBindingDecl (bindings : List String) (callee : String)
  | otherNode (raw : String) (children : List Expr)

inductive Member where
  | assign (name : String) (namePos : Pos) (initLine : Nat) (init : Expr)
  | otherMember (children : List Expr)

inductive JsxAttr where
  | attr (name : String) (value : Option Expr)
  | otherAttr (children : List Expr)

inductive TemplateSpan where
  | span (e : Expr) (startOff stopOff : Nat)
end

/-- A parsed source file: its top-level nodes. -/
abbrev TsFile := List Expr

/-- `node.getText(sourceFile)`, the verbatim source text of a node (an
identifier's text is its name; declaration-shaped nodes are never used as
initializer values, so their raw text is immaterial and modelled as ""). -/
def exprRaw : Expr → String
  | .stringLit _ raw => raw
  | .numericLit _ raw => raw
  | .identExpr n => n
  | .objectLit _ raw => raw
  | .propAccess _ _ _ _ raw => raw
  | .jsxElement _ _ _ raw => raw
  | .jsxExprNode _ _ _ => ""
  | .templateNode _ raw => raw
  | .varDecl _ _ _ => ""
  | .hookBindingDecl _ _ => ""
  | .otherNode raw _ => raw

/-- `extractValue` from `scanner.ts`: string/numeric literal → its `.text`,
identifier → its name, property access and every other expression →
`getText(sourceFile)`. -/
def extractValue (e : Expr) : String :=
  match e with
  | .stringLit t _ => t
  | .numericLit t _ => t
  | .identExpr n => n
  | e => exprRaw e

def memberChildren : Member → List Expr
  | .assign _ _ _ init => [init]
  | .otherMember es => es

def attrChildren : JsxAttr → List Expr
  | .attr _ (some v) => [v]
  | .attr _ none => []
  | .otherAttr es => es

def spanExpr : TemplateSpan → Expr
  | .span e _ _ => e

/-- `ts.forEachChild`: the direct children of a node. -/
def nodeChildren : Expr → List Expr
  | .stringLit _ _ => []
  | .numericLit _ _ => []
  | .identExpr _ => []
  | .objectLit ms _ => ms.flatMap memberChildren
  | .propAccess obj _ _ _ _ => [obj]
  | .jsxElement _ attrs children _ => attrs.flatMap attrChildren ++ children
  | .jsxExprNode inner _ _ => inner.toList
  | .templateNode spans _ => spans.map spanExpr
  | .varDecl _ _ init => init.toList
  | .hookBindingDecl _ _ => []
  | .otherNode _ es => es

theorem sizeOf_lt_of_mem_memberChildren {c : Expr} {m : Member}
    (h : c ∈ memberChildren m) : sizeOf c < sizeOf m := by
  cases m with
  | assign n p l init =>
      simp [memberChildren] at h
      subst h
      simp
  | otherMember es =>
      simp [memberChildren] at h
      have := List.sizeOf_lt_of_mem h
      simp
      omega

theorem sizeOf_lt_of_mem_attrChildren {c : Expr} {a : JsxAttr}
    (h : c ∈ attrChildren a) : sizeOf c < sizeOf a := by
  cases a with
  | attr n v =>
      cases v with
      | some e =>
          simp [attrChildren] at h
          subst h
          simp
          omega
      | none => simp [attrChildren] at h
  | otherAttr es =>
      simp [attrChildren] at h
      have := List.sizeOf_lt_of_mem h
      simp
      omega

theorem sizeOf_spanExpr_lt (s : TemplateSpan) : sizeOf (spanExpr s) < sizeOf s := by
  cases s with
  | span e a b =>
      simp [spanExpr]
      omega

/-- Every direct child of a node is structurally smaller. -/
theorem sizeOf_lt_of_mem_nodeChildren {c e : Expr}
    (h : c ∈ nodeChildren e) : sizeOf c < sizeOf e := by
  cases e with
  | stringLit t r => simp [nodeChildren] at h
  | numericLit t r => simp [nodeChildren] at h
  | identExpr n => simp [nodeChildren] at h
  | objectLit ms raw =>
      simp only [nodeChildren, List.mem_flatMap] at h
      obtain ⟨m, hm, hc⟩ := h
      have h1 := sizeOf_lt_of_mem_memberChildren hc
      have h2 := List.sizeOf_lt_of_mem hm
      simp
      omega
  | propAccess obj n a b raw =>
      simp [nodeChildren] at h
      subst h
      simp
      omega
  | jsxElement tag attrs children raw =>
      simp only [nodeChildren, List.mem_append, List.mem_flatMap] at h
      rcases h with ⟨a, ha, hc⟩ | hc
      · have h1 := sizeOf_lt_of_mem_attrChildren hc
        have h2 := List.sizeOf_lt_of_mem ha
        simp
        omega
      · have := List.sizeOf_lt_of_mem hc
        simp
        omega
  | jsxExprNode inner a b =>
      cases inner with
      | some e0 =>
          simp [nodeChildren] at h
          subst h
          simp
          omega
      | none => simp [nodeChildren] at h
  | templateNode spans raw =>
      simp only [nodeChildren, List.mem_map] at h
      obtain ⟨s, hs, hc⟩ := h
      have h1 := sizeOf_spanExpr_lt s
      have h2 := List.sizeOf_lt_of_mem hs
      rw [hc] at h1
      simp
      omega
  | varDecl n ty init =>
      cases init with
      | some e0 =>
          simp [nodeChildren] at h
          subst h
          simp
          omega
      | none => simp [nodeChildren] at h
  | hookBindingDecl bs c0 => simp [nodeChildren] at h
  | otherNode raw es =>
      simp [nodeChildren] at h
      have := List.sizeOf_lt_of_mem h
      simp
      omega

mutual
/-- The pre-order node list of a subtree: the node itself, then the
subtrees of its children.  This is the visit order of the recursive
`visit`/`forEachChild` traversals in the source. -/
def visitAll : Expr → List Expr
  | e@(.objectLit ms _) => e :: visitMembers ms
  | e@(.propAccess obj _ _ _ _) => e :: visitAll obj
  | e@(.jsxElement _ attrs children _) => e :: (visitAttrs attrs ++ visitList children)
  | e@(.jsxExprNode (some i) _ _) => e :: visitAll i
  | e@(.jsxExprNode none _ _) => [e]
  | e@(.templateNode spans _) => e :: visitSpans spans
  | e@(.varDecl _ _ (some i)) => e :: visitAll i
  | e@(.varDecl _ _ none) => [e]
  | e@(.otherNode _ es) => e :: visitList es
  | e@(.stringLit _ _) => [e]
  | e@(.numericLit _ _) => [e]
  | e@(.identExpr _) => [e]
  | e@(.hookBindingDecl _ _) => [e]

def visitList : List Expr → List Expr
  | [] => []
  | e :: es => visitAll e ++ visitList es

def visitMembers : List Member → List Expr
  | [] => []
  | .assign _ _ _ init :: ms => visitAll init ++ visitMembers ms
  | .otherMember es :: ms => visitList es ++ visitMembers ms

def visitAttrs : List JsxAttr → List Expr
  | [] => []
  | .attr _ (some v) :: rest => visitAll v ++ visitAttrs rest
  | .attr _ none :: rest => visitAttrs rest
  | .otherAttr es :: rest => visitList es ++ visitAttrs rest

def visitSpans : List TemplateSpan → List Expr
  | [] => []
  | .span e _ _ :: rest => visitAll e ++ visitSpans rest
end

theorem visitList_eq_flatMap (es : List Expr) :
    visitList es = es.flatMap visitAll := by
  induction es with
  | nil => simp [visitList]
  | cons e es ih => simp [visitList, ih]

theorem visitMembers_eq_flatMap (ms : List Member) :
    visitMembers ms = (ms.flatMap memberChildren).flatMap visitAll := by
  induction ms with
  | nil => simp [visitMembers]
  | cons m ms ih =>
      cases m with
      | assign n p l init => simp [visitMembers, memberChildren, ih]
      | otherMember es => simp [visitMembers, memberChildren, ih, visitList_eq_flatMap]

theorem visitAttrs_eq_flatMap (rest : List JsxAttr) :
    visitAttrs rest = (rest.flatMap attrChildren).flatMap visitAll := by
  induction rest with
  | nil => simp [visitAttrs]
  | cons a rest ih =>
      cases a with
      | attr n v =>
          cases v with
          | some e => simp [visitAttrs, attrChildren, ih]
          | none => simp [visitAttrs, attrChildren, ih]
      | otherAttr es => simp [visitAttrs, attrChildren, ih, visitList_eq_flatMap]

theorem visitSpans_eq_flatMap (rest : List TemplateSpan) :
    visitSpans rest = (rest.map spanExpr).flatMap visitAll := by
  induction rest with
  | nil => simp [visitSpans]
  | cons s rest ih =>
      cases s with
      | span e a b => simp [visitSpans, spanExpr, ih]

/-- `visitAll` is the node itself followed by the pre-order traversals of
its `forEachChild` children. -/
theorem visitAll_eq (e : Expr) :
    visitAll e = e :: (nodeChildren e).flatMap visitAll := by
  cases e with
  | objectLit ms raw => simp [visitAll, nodeChildren, visitMembers_eq_flatMap]
  | propAccess obj n a b raw => simp [visitAll, nodeChildren]
  | jsxElement t attrs children raw =>
      simp [visitAll, nodeChildren, visitAttrs_eq_flatMap, visitList_eq_flatMap]
  | jsxExprNode inner a b =>
      cases inner with
      | some i => simp [visitAll, nodeChildren]
      | none => simp [visitAll, nodeChildren]
  | templateNode spans raw => simp [visitAll, nodeChildren, visitSpans_eq_flatMap]
  | varDecl n ty init =>
      cases init with
      | some i => simp [visitAll, nodeChildren]
      | none => simp [visitAll, nodeChildren]
  | otherNode raw es => simp [visitAll, nodeChildren, visitList_eq_flatMap]
  | stringLit t r => simp [visitAll, nodeChildren]
  | numericLit t r => simp [visitAll, nodeChildren]
  | identExpr n => simp [visitAll, nodeChildren]
  | hookBindingDecl bs c => simp [visitAll, nodeChildren]

/-- All nodes of a file in visit order. -/
def allNodes (f : TsFile) : List Expr :=
  f.flatMap visitAll

/-! ## Structured-source extractors (`scanner.ts`) -/

/-- `collectThemeVars`: the names of identifier-named variable
declarations whose declared type is the `ThemeConfig` type reference,
anywhere in the file. -/
def themeVarNames (f : TsFile) : List String :=
  (allNodes f).flatMap (fun e =>
    match e with
    | .varDecl n (some "ThemeConfig") _ => [n]
    | _ => [])

/-- The shared per-property loop over a `token` object literal: every
identifier-named property assignment becomes one entry whose value is
`extractValue` of its initializer and whose position is the property
name's start position. -/
def tokenObjectAdds (uri : String) (src : Source) (ctx : Option String)
    (tokenProps : List Member) : List (String × TokenData) :=
  tokenProps.flatMap (fun tp =>
    match tp with
    | .assign name namePos _ init =>
        [(name, ⟨uri, extractValue init, namePos, src, ctx⟩)]
    | _ => [])

/-- `extractFromThemeConfig`: a property assignment named `token` whose
enclosing object literal directly initializes a collected theme variable
yields one entry per property of the nested `token` object literal, with
`source = themeConfig` and `context` = the theme variable's name.  The
parent-pointer checks of the source are rendered top-down: the walk stops
at each variable declaration whose initializer is an object literal with a
`token` member. -/
def extractFromThemeConfig (uri : String) (f : TsFile) : List (String × TokenData) :=
  let idents := themeVarNames f
  (allNodes f).flatMap (fun e =>
    match e with
    | .varDecl vname _ (some (.objectLit ms _)) =>
        if idents.any (fun s => decide (s = vname)) then
          ms.flatMap (fun m =>
            match m with
            | .assign "token" _ _ (.objectLit tokenProps _) =>
                tokenObjectAdds uri .themeConfig (some vname) tokenProps
            | _ => [])
        else []
    | _ => [])

/-- `extractTokensFromThemeObject`: given the expression of a `theme`
attribute, extract every property of a nested `token` object literal with
context `'theme-object'`. -/
def extractTokensFromThemeObject (uri : String) (src : Source) (e : Expr) :
    List (String × TokenData) :=
  match e with
  | .objectLit ms _ =>
      ms.flatMap (fun m =>
        match m with
        | .assign "token" _ _ (.objectLit tokenProps _) =>
            tokenObjectAdds uri src (some "theme-object") tokenProps
        | _ => [])
  | _ => []

/-- `extractFromConfigProvider`: `<ConfigProvider theme={...}>` elements;
the `theme` attribute's expression is handed to
`extractTokensFromThemeObject` with `source = configProvider`. -/
def extractFromConfigProvider (uri : String) (f : TsFile) : List (String × TokenData) :=
  (allNodes f).flatMap (fun e =>
    match e with
    | .jsxElement tag attrs _ _ =>
        if tag = "ConfigProvider" then
          attrs.flatMap (fun a =>
            match a with
            | .attr "theme" (some ex) =>
                extractTokensFromThemeObject uri .configProvider ex
            | _ => [])
        else []
    | _ => [])

/-- `extractWithTsMorph`: every property assignment in the file whose key
passes the token-name test, with the initializer's verbatim `getText()` as
value, `source = themeConfig`, and position `(initializer line, 0)` (the
source computes `getLineAndColumnAtPos(getStartLinePos())`, the start of
the initializer's line, whose column is always 1, stored 0-based). -/
def extractWithTsMorph (uri : String) (f : TsFile) : List (String × TokenData) :=
  (allNodes f).flatMap (fun e =>
    match e with
    | .objectLit ms _ =>
        ms.flatMap (fun m =>
          match m with
          | .assign key _ initLine init =>
              if acceptedTokenName key then
                [(key, ⟨uri, exprRaw init, ⟨initLine, 0⟩, .themeConfig, none⟩)]
              else []
          | _ => [])
    | _ => [])

/-- `extractFromTsxTs`: the ThemeConfig pass, the ConfigProvider pass, and
(for `.ts`/`.tsx` files only) the ts-morph heuristic pass, in that order.
The `useToken`/`getToken` hook pass and the token-property-access pass are
commented out in the source and add nothing. -/
def extractFromTsxTs (uri : String) (tsMorphApplies : Bool) (f : TsFile) :
    List (String × TokenData) :=
  extractFromThemeConfig uri f ++ extractFromConfigProvider uri f ++
    (if tsMorphApplies then extractWithTsMorph uri f else [])

/-! ## Declarative-document (JSON5) extractor -/

/-- A parsed JSON5 document.  A JS number is abstracted by its
`JSON.stringify` rendering, which is all `collectTokens` ever reads off
it. -/
inductive Json where
  | str (s : String)
  | num (stringified : String)
  | bool (b : Bool)
  | null
  | arr (items : List Json)
  | obj (fields : List (String × Json))

/-- JS `for (const key in obj)` over an array visits the indices
`"0"`, `"1"`, … . -/
def enumRender : Nat → List Json → List (String × Json)
  | _, [] => []
  | i, v :: rest => (toString i, v) :: enumRender (i + 1) rest

/-- The key/value pairs `for (const key in obj)` enumerates: an object's
fields in insertion order, an array's indexed items, and nothing for
scalars (`!obj || typeof obj !== "object"` returns early; `typeof null`
is "object" but `!null` is true). -/
def childFields : Json → List (String × Json)
  | .obj fs => fs
  | .arr items => enumRender 0 items
  | _ => []

def hexDigit (n : Nat) : Char :=
  if n < 10 then Char.ofNat (48 + n) else Char.ofNat (87 + n)

/-- One character of `JSON.stringify`'s string escaping. -/
def escapeJsonChar (c : Char) : String :=
  if c = '"' then "\\\""
  else if c = '\\' then "\\\\"
  else if c = '\n' then "\\n"
  else if c = '\r' then "\\r"
  else if c = '\t' then "\\t"
  else if c.toNat = 8 then "\\b"
  else if c.toNat = 12 then "\\f"
  else if c.toNat < 32 then
    "\\u00" ++ String.mk [hexDigit (c.toNat / 16), hexDigit (c.toNat % 16)]
  else String.singleton c

/-- `JSON.stringify` of a string: the escaped content in double quotes. -/
def jsonStringifyString (s : String) : String :=
  "\"" ++ (s.data.map escapeJsonChar).foldl (fun a b => a ++ b) "" ++ "\""

/-- `typeof value === "string" || typeof value === "number"`. -/
def isStrOrNum : Json → Bool
  | .str _ => true
  | .num _ => true
  | _ => false

/-- `JSON.stringify(value)` as applied in `extractFromJson` (only ever
reached for string or number values). -/
def jsonStringify : Json → String
  | .str s => jsonStringifyString s
  | .num r => r
  | _ => ""

theorem mem_enumRender {kv : String × Json} :
    ∀ {i : Nat} {items : List Json}, kv ∈ enumRender i items → kv.2 ∈ items := by
  intro i items
  induction items generalizing i with
  | nil => intro h; simp [enumRender] at h
  | cons v rest ih =>
      intro h
      simp only [enumRender, List.mem_cons] at h
      rcases h with h | h
      · subst h; simp
      · exact List.mem_cons_of_mem _ (ih h)

theorem sizeOf_lt_of_mem_childFields {kv : String × Json} {j : Json}
    (h : kv ∈ childFields j) : sizeOf kv.2 < sizeOf j := by
  cases j with
  | obj fs =>
      simp only [childFields] at h
      have h1 := List.sizeOf_lt_of_mem h
      obtain ⟨k, v⟩ := kv
      simp at h1 ⊢
      omega
  | arr items =>
      simp only [childFields] at h
      have h1 := List.sizeOf_lt_of_mem (mem_enumRender h)
      simp
      omega
  | str s => simp [childFields] at h
  | num r => simp [childFields] at h
  | bool b => simp [childFields] at h
  | null => simp [childFields] at h

/-- The entry added for an accepted string- or number-valued key: the
`JSON.stringify`ed value, position `(0,0)`, `source = json` and context
`fullPath.join('.')` where `fullPath = [...path, key]`. -/
def jsonEntry (uri key : String) (v : Json) (path : List String) :
    String × TokenData :=
  (key, ⟨uri, jsonStringify v, ⟨0, 0⟩, .json,
         some (joinSep "." (path ++ [key]))⟩)

mutual
/-- The recursive `collectTokens` closure of `extractFromJson`: for every
enumerated key, a string- or number-valued key accepted by the token-name
test yields one entry; every other value is recursed into with the
extended path. -/
def collectTokens (uri : String) : Json → List String → List (String × TokenData)
  | .obj fields, path => collectFields uri fields path
  | .arr items, path => collectItems uri items 0 path
  | _, _ => []

def collectFields (uri : String) :
    List (String × Json) → List String → List (String × TokenData)
  | [], _ => []
  | (k, v) :: rest, path =>
      (if isStrOrNum v && acceptedTokenName k then [jsonEntry uri k v path]
       else collectTokens uri v (path ++ [k])) ++ collectFields uri rest path

def collectItems (uri : String) :
    List Json → Nat → List String → List (String × TokenData)
  | [], _, _ => []
  | v :: rest, i, path =>
      (if isStrOrNum v && acceptedTokenName (toString i) then
         [jsonEntry uri (toString i) v path]
       else collectTokens uri v (path ++ [toString i])) ++
        collectItems uri rest (i + 1) path
end

/-- `collectFields`/`collectItems` are the uniform per-key step over the
enumerated `childFields`. -/
theorem collectFields_eq_flatMap (uri : String) :
    ∀ (fields : List (String × Json)) (path : List String),
      collectFields uri fields path =
        fields.flatMap (fun kv =>
          if isStrOrNum kv.2 && acceptedTokenName kv.1 then [jsonEntry uri kv.1 kv.2 path]
          else collectTokens uri kv.2 (path ++ [kv.1])) := by
  intro fields
  induction fields with
  | nil => intro path; simp [collectFields]
  | cons kv rest ih =>
      intro path
      obtain ⟨k, v⟩ := kv
      simp [collectFields, ih]

theorem collectItems_eq_flatMap (uri : String) :
    ∀ (items : List Json) (i : Nat) (path : List String),
      collectItems uri items i path =
        (enumRender i items).flatMap (fun kv =>
          if isStrOrNum kv.2 && acceptedTokenName kv.1 then [jsonEntry uri kv.1 kv.2 path]
          else collectTokens uri kv.2 (path ++ [kv.1])) := by
  intro items
  induction items with
  | nil => intro i path; simp [collectItems, enumRender]
  | cons v rest ih =>
      intro i path
      simp [collectItems, enumRender, ih]

/-- One unfolding of `collectTokens` in terms of the enumerated
key/value pairs. -/
theorem collectTokens_eq (uri : String) (j : Json) (path : List String) :
    collectTokens uri j path =
      (childFields j).flatMap (fun kv =>
        if isStrOrNum kv.2 && acceptedTokenName kv.1 then [jsonEntry uri kv.1 kv.2 path]
        else collectTokens uri kv.2 (path ++ [kv.1])) := by
  cases j with
  | obj fields => simp [collectTokens, childFields, collectFields_eq_flatMap]
  | arr items => simp [collectTokens, childFields, collectItems_eq_flatMap]
  | str s => simp [collectTokens, childFields]
  | num r => simp [collectTokens, childFields]
  | bool b => simp [collectTokens, childFields]
  | null => simp [collectTokens, childFields]

/-- `extractFromJson`: on parse failure (`JSON5.parse` threw) the catch
block logs a warning and contributes nothing; otherwise the recursive
collection starting from the document root with an empty path. -/
def extractFromJson (uri : String) (parsed : Option Json) :
    List (String × TokenData) :=
  match parsed with
  | none => []
  | some j => collectTokens uri j []

/-! ## Style-variable extractor -/

/-- The character class `[\w-]`. -/
def isWordChar (c : Char) : Bool :=
  c.isAlpha || c.isDigit || c = '_' || c = '-'

/-- All matches of `/@([\w-]+)/g` over a list of characters starting at
column `i`: pairs of (column of the `@`, the captured identifier).  The
scan after a match resumes past the consumed identifier, exactly like the
regex engine's `lastIndex`. -/
def cssMatches : List Char → Nat → List (Nat × String)
  | [], _ => []
  | c :: rest, i =>
      if c = '@' then
        let run := rest.takeWhile isWordChar
        if run.isEmpty then cssMatches rest (i + 1)
        else (i, String.mk run) :: cssMatches (rest.drop run.length) (i + 1 + run.length)
      else cssMatches rest (i + 1)
termination_by cs _ => cs.length
decreasing_by
  · simp
  · simp [List.length_drop]
    omega
  · simp

/-- `extractFromCssLike`: split on `"\n"`, and for every match on every
line record one entry with the identifier as both name and value,
`source = css`, and the exact line and `@` column. -/
def extractFromCssLike (uri : String) (content : String) :
    List (String × TokenData) :=
  (splitOnChar '\n' content).enum.flatMap (fun li =>
    (cssMatches li.2.toList 0).map (fun m =>
      (m.2, ⟨uri, m.2, ⟨li.1, m.1⟩, .css, none⟩)))

/-! ## File enumeration and the scan orchestrator -/

/-- The contents of one file, as seen through the three parse paths any
file's text admits: its raw text (style extractor), its `JSON5.parse`
outcome (`none` models a parse error), and its error-tolerant TypeScript
parse tree. -/
structure FileContent where
  cssText : String
  jsonParsed : Option Json
  tsFile : TsFile

/-- A directory tree. -/
inductive FsEntry where
  | file (name : String) (content : FileContent)
  | dir (name : String) (entries : List FsEntry)

/-- The fixed `ignoredDirs` set of `scanner.ts`. -/
def ignoredDirs : List String :=
  ["node_modules", "dist", "build", ".git", ".next", "out"]

def pathJoin (dir name : String) : String := dir ++ "/" ++ name

def isScriptPath (p : String) : Bool :=
  strEndsWith p ".ts" || strEndsWith p ".tsx" || strEndsWith p ".js" || strEndsWith p ".jsx"

def isStylePath (p : String) : Bool :=
  strEndsWith p ".css" || strEndsWith p ".less" || strEndsWith p ".scss"

/-- The `supportedExtensions` regex
`/\.(ts|tsx|js|jsx|json|css|less|scss)$/`. -/
def extSupported (p : String) : Bool :=
  isScriptPath p || strEndsWith p ".json" || isStylePath p

mutual
/-- `findAllFiles`, with the read file contents carried along: recurse
into every directory entry that is not in the ignore set, and keep every
file whose joined path passes the extension test. -/
def findAllFilesC (dir : String) : List FsEntry → List (String × FileContent)
  | [] => []
  | e :: rest => findInEntry dir e ++ findAllFilesC dir rest

def findInEntry (dir : String) : FsEntry → List (String × FileContent)
  | .dir name sub =>
      if ignoredDirs.any (fun s => decide (s = name)) then []
      else findAllFilesC (pathJoin dir name) sub
  | .file name c =>
      if extSupported (pathJoin dir name) then [(pathJoin dir name, c)] else []
end

/-- The paths `findAllFiles` returns. -/
def findAllFiles (dir : String) (entries : List FsEntry) : List String :=
  (findAllFilesC dir entries).map Prod.fst

/-- The per-file dispatch of `scanAndIndexTokens`: script extensions to
the structured-source extractor (the ts-morph pass only for `.ts`/`.tsx`),
`.json` to the declarative extractor, style extensions to the
style-variable extractor. -/
def fileAdds (path : String) (c : FileContent) : List (String × TokenData) :=
  if isScriptPath path then
    extractFromTsxTs path (strEndsWith path ".ts" || strEndsWith path ".tsx") c.tsFile
  else if strEndsWith path ".json" then extractFromJson path c.jsonParsed
  else if isStylePath path then extractFromCssLike path c.cssText
  else []

/-- Append a list of discovered definitions to the index in order (the
extractors call `addTokenToIndex` once per discovery). -/
def addAll (idx : TokenIndex) (l : List (String × TokenData)) : TokenIndex :=
  l.foldl (fun i kd => addTokenToIndex i kd.1 kd.2) idx

/-- The per-file loop of `scanAndIndexTokens` over the enumerated files,
starting from the cleared index. -/
def scanFiles (files : List (String × FileContent)) : TokenIndex :=
  files.foldl (fun idx pc => addAll idx (fileAdds pc.1 pc.2)) []

/-- `scanAndIndexTokens`: clear the index, enumerate the files, and append
every extractor's discoveries.  (The source fans the per-file work out
with `Promise.all`; single-threaded completion order is modelled as
enumeration order, which no claim depends on.) -/
def scanAndIndexTokens (root : String) (entries : List FsEntry) : TokenIndex :=
  scanFiles (findAllFilesC root entries)

/-! ## Position utilities (`util.ts`) -/

/-- The maximal matches of `/[\w-]+/g` over a line, with their start
columns, in left-to-right order. -/
def wordRuns : List Char → Nat → List (Nat × String)
  | [], _ => []
  | c :: rest, i =>
      if isWordChar c then
        let run := rest.takeWhile isWordChar
        (i, String.mk (c :: run)) :: wordRuns (rest.drop run.length) (i + 1 + run.length)
      else wordRuns rest (i + 1)
termination_by cs _ => cs.length
decreasing_by
  · simp [List.length_drop]
    omega
  · simp

/-- `getWordAtPosition`: the first (hence, as proved below, the unique)
`[\w-]+` match on the addressed line whose inclusive span
`[start, start + length]` contains the cursor column, else `''`.
Token names are ASCII, so JS UTF-16 columns coincide with character
counts. -/
def getWordAtPosition (line : String) (character : Nat) : String :=
  match (wordRuns line.toList 0).find?
      (fun sw => decide (sw.1 ≤ character) && decide (character ≤ sw.1 + sw.2.length)) with
  | some sw => sw.2
  | none => ""

/-- The character class `\w` (without the hyphen). -/
def isWChar (c : Char) : Bool := c.isAlpha || c.isDigit || c = '_'

theorem takeWhile_length_le (p : Char → Bool) (l : List Char) :
    (l.takeWhile p).length ≤ l.length := by
  induction l with
  | nil => simp
  | cons c rest ih =>
      by_cases h : p c <;> simp [List.takeWhile_cons, h] <;> omega

/-- The cumulative start offsets the greedy `(\w+\.)*` loop can stop at
(ascending): after zero iterations, after one complete `\w+.` group, … -/
def iterStops (s : List Char) : List Nat :=
  let run := s.takeWhile isWChar
  if h : run.isEmpty then [0]
  else
    match (s.drop run.length).head? with
    | some '.' => 0 :: (iterStops (s.drop (run.length + 1))).map (fun q => q + (run.length + 1))
    | _ => [0]
termination_by s.length
decreasing_by
  simp [List.length_drop]
  have h1 : run.length ≠ 0 := by
    simpa [List.isEmpty_iff, List.length_eq_zero] using h
  have h2 : run.length ≤ s.length := takeWhile_length_le isWChar s
  omega

/-- `token\.(\w+)` at the head of `s`: on success, the consumed length
`6 + |w|` and the captured property `w`. -/
def tokenDotWordAt (s : List Char) : Option (Nat × String) :=
  if s.take 5 = "token".toList then
    match (s.drop 5).head? with
    | some '.' =>
        let w := (s.drop 6).takeWhile isWChar
        if w.isEmpty then none else some (6 + w.length, String.mk w)
    | _ => none
  else none

/-- One anchored attempt of `(\w+\.)*token\.(\w+)` at the head of `s`:
the greedy star backtracks from the most iterations, and each iteration
necessarily consumes a complete `\w+` run plus a dot.  Returns
(full match length, property start offset, property). -/
def tokMatchAt (s : List Char) : Option (Nat × Nat × String) :=
  (iterStops s).reverse.findSome? (fun q =>
    (tokenDotWordAt (s.drop q)).map (fun lw => (q + lw.1, q + 6, lw.2)))

/-- The leftmost match of the token-access pattern in `s`: position of
the match, full length, property start offset within the match, and the
property. -/
def findTokMatch : List Char → Option (Nat × Nat × Nat × String)
  | [] => none
  | s@(_ :: rest) =>
      match tokMatchAt s with
      | some (l, ps, w) => some (0, l, ps, w)
      | none =>
          match findTokMatch rest with
          | some (p, l, ps, w) => some (p + 1, l, ps, w)
          | none => none

theorem tokenDotWordAt_pos {s : List Char} {l : Nat} {w : String}
    (h : tokenDotWordAt s = some (l, w)) : 0 < l := by
  unfold tokenDotWordAt at h
  split at h
  · split at h
    · dsimp only at h
      split at h
      · exact absurd h (by simp)
      · simp at h
        omega
    · exact absurd h (by simp)
  · exact absurd h (by simp)

theorem tokMatchAt_pos {s : List Char} {len ps : Nat} {w : String}
    (h : tokMatchAt s = some (len, ps, w)) : 0 < len := by
  unfold tokMatchAt at h
  obtain ⟨q, hq, hsome⟩ := List.exists_of_findSome?_eq_some h
  cases htd : tokenDotWordAt (s.drop q) with
  | none => simp [htd] at hsome
  | some lw =>
      obtain ⟨l, w0⟩ := lw
      have hl := tokenDotWordAt_pos htd
      simp [htd] at hsome
      omega

theorem findTokMatch_len_pos :
    ∀ {s : List Char} {p len ps : Nat} {w : String},
      findTokMatch s = some (p, len, ps, w) → 0 < len := by
  intro s
  induction s with
  | nil => intro p len ps w h; simp [findTokMatch] at h
  | cons c rest ih =>
      intro p len ps w h
      unfold findTokMatch at h
      cases hm : tokMatchAt (c :: rest) with
      | some r =>
          obtain ⟨l0, ps0, w0⟩ := r
          rw [hm] at h
          simp at h
          obtain ⟨_, h2, _, _⟩ := h
          rw [← h2]
          exact tokMatchAt_pos hm
      | none =>
          rw [hm] at h
          cases hr : findTokMatch rest with
          | none => rw [hr] at h; simp at h
          | some t =>
              obtain ⟨p1, l1, ps1, w1⟩ := t
              rw [hr] at h
              simp at h
              obtain ⟨_, h2, _, _⟩ := h
              rw [← h2]
              exact ih hr

/-- The `while ((match = tokenAccessRegex.exec(line)))` loop of
`getTokenPropertyAtPosition`: if the cursor sits inside the inclusive
span of the current match's property, return it; otherwise continue after
the match. -/
def tokenPropLoop (s : List Char) (base character : Nat) : Option String :=
  match h : findTokMatch s with
  | none => none
  | some (p, len, psRel, w) =>
      let propStart := base + p + psRel
      if propStart ≤ character ∧ character ≤ propStart + w.length then some w
      else tokenPropLoop (s.drop (p + len)) (base + p + len) character
termination_by s.length
decreasing_by
  have hlen := findTokMatch_len_pos h
  have hs : s ≠ [] := by
    intro hnil
    rw [hnil] at h
    simp [findTokMatch] at h
  have : 0 < s.length := List.length_pos.mpr hs
  simp [List.length_drop]
  omega

/-- `getTokenPropertyAtPosition` from `util.ts`: the property `<name>` of
the first `(\w+\.)*token\.(\w+)` match whose property span contains the
cursor (the source computes the property start via
`fullMatch.lastIndexOf(tokenProperty)`; the property is the suffix of the
full match and cannot occur later in it, so this is the suffix
position). -/
def getTokenPropertyAtPosition (line : String) (character : Nat) : Option String :=
  tokenPropLoop line.toList 0 character

/-! ## Local resolution (`util.ts`) -/

/-- `getAccessChain`: the dotted names from the root, with the root
identifier included when the chain bottoms out in one. -/
def getAccessChain : Expr → List String
  | .propAccess obj name _ _ _ => getAccessChain obj ++ [name]
  | .identExpr n => [n]
  | _ => []

/-- `current.properties.find(isPropertyAssignment ∧ identifier name = key)`. -/
def findAssignInit (ms : List Member) (k : String) : Option Expr :=
  ms.findSome? (fun m =>
    match m with
    | .assign n _ _ init => if n = k then some init else none
    | _ => none)

/-- The key-by-key walk of `resolveObjectValue`: each step requires an
object literal containing the key as an identifier-named property
assignment. -/
def walkChain : Expr → List String → Option Expr
  | e, [] => some e
  | e, k :: rest =>
      match e with
      | .objectLit ms _ =>
          match findAssignInit ms k with
          | some init => walkChain init rest
          | none => none
      | _ => none

/-- `resolveObjectValue` from `util.ts` (current revision, with the
numeric-literal case): the final node's text for a string or numeric
literal, the placeholder `"[object]"` for an object literal, `null`
otherwise; `null` on any failed step. -/
def resolveObjectValue (obj : Expr) (chain : List String) : Option String :=
  match walkChain obj chain with
  | none => none
  | some e =>
      match e with
      | .stringLit t _ => some t
      | .numericLit t _ => some t
      | .objectLit _ _ => some "[object]"
      | _ => none

/-- The identifier-named variable declarations named `root` whose
initializer is an object literal, in visit order (the source's `visit`
overwrites `value` at each such declaration, so the last one wins). -/
def varDeclObjInits (f : TsFile) (root : String) : List Expr :=
  (allNodes f).flatMap (fun e =>
    match e with
    | .varDecl n _ (some init) =>
        if n = root then
          match init with
          | .objectLit _ _ => [init]
          | _ => []
        else []
    | _ => [])

/-- `resolveChainValue`: resolve the chain against the last matching
object-literal initializer of the root variable; a non-string outcome
(including no declaration at all) is `null`. -/
def resolveChainValue (f : TsFile) (chain : List String) : Option String :=
  match chain with
  | [] => none
  | root :: rest =>
      match (varDeclObjInits f root).getLast? with
      | none => none
      | some obj => resolveObjectValue obj rest

/-- `findTokenUsages`: every `tokenVarName.propertyName` property access
in the file contributes the informational string
`"tokenVarName.propertyName"`. -/
def findTokenUsages (f : TsFile) (tokenVarName propertyName : String) : List String :=
  (allNodes f).flatMap (fun e =>
    match e with
    | .propAccess (.identExpr x) n _ _ _ =>
        if x = tokenVarName ∧ n = propertyName then
          [tokenVarName ++ "." ++ propertyName]
        else []
    | _ => [])

/-- The four collection branches executed at each visited node by
`resolveFullTokenValueAtPosition`: direct property accesses, property
accesses wrapped in a JSX expression, template-literal spans, and the
`const { token } = useToken()` / `getToken()` destructuring idiom. -/
def rfvBranch (f : TsFile) (word : String) (offset : Nat) (e : Expr) : List String :=
  (match e with
   | .propAccess _ name startOff stopOff _ =>
       if name = word ∧ startOff ≤ offset ∧ offset ≤ stopOff then
         (resolveChainValue f (getAccessChain e)).toList
       else []
   | _ => []) ++
  (match e with
   | .jsxExprNode (some inner) startOff stopOff =>
       match inner with
       | .propAccess _ name _ _ _ =>
           if name = word ∧ startOff ≤ offset ∧ offset ≤ stopOff then
             (resolveChainValue f (getAccessChain inner)).toList
           else []
       | _ => []
   | _ => []) ++
  (match e with
   | .templateNode spans _ =>
       spans.flatMap (fun sp =>
         match sp with
         | .span (.propAccess obj name a b raw) startOff stopOff =>
             if name = word ∧ startOff ≤ offset ∧ offset ≤ stopOff then
               (resolveChainValue f
                 (getAccessChain (.propAccess obj name a b raw))).toList
             else []
         | _ => [])
   | _ => []) ++
  (match e with
   | .hookBindingDecl bindings callee =>
       if callee = "useToken" ∨ callee = "getToken" then
         (bindings.filter (fun b => b = "token")).flatMap
           (fun _ => findTokenUsages f "token" word)
       else []
   | _ => [])

/-- `resolveFullTokenValueAtPosition`: all values collected over the
visit, or `null` when none were collected. -/
def resolveFullTokenValueAtPosition (f : TsFile) (word : String) (offset : Nat) :
    Option (List String) :=
  let results := (allNodes f).flatMap (rfvBranch f word offset)
  if results.isEmpty then none else some results

/-- The start line/character and verbatim text of one node of the
re-parsed query document, as consulted by
`findExactTokenDefinitionAtPosition`. -/
structure NodeInfo where
  line : Nat
  character : Nat
  text : String
deriving DecidableEq, Repr

/-- `findExactTokenDefinitionAtPosition`: require some node on the query
line, starting at or before the cursor, whose text is the token name (the
traversal keeps overwriting `foundNode`, so the last such node wins —
only its existence matters); then prefer a definition from a script file,
falling back to the first definition. -/
def findExactTokenDefinitionAtPosition (nodes : List NodeInfo) (pos : Pos)
    (tokenName : String) (tokenDefs : List TokenData) : Option TokenData :=
  let foundNode := (nodes.filter (fun n =>
    decide (n.line = pos.line ∧ n.character ≤ pos.character ∧ n.text = tokenName))).getLast?
  match foundNode with
  | none => none
  | some _ =>
      match tokenDefs.find? (fun d => isScriptPath d.uri) with
      | some d => some d
      | none => tokenDefs.head?

/-! ## Language-server query handlers (`server.ts`, class `AntdLs`) -/

/-- An open document as consulted by the handlers: its text (as lines)
and the two views `util.ts` re-parses from that text — the syntax tree
and the per-node start positions/texts. -/
structure DocModel where
  lines : List String
  ast : TsFile
  nodes : List NodeInfo

/-- The handler-relevant state of an `AntdLs` instance. -/
structure ServerState where
  tokenIndex : TokenIndex
  rootPath : String
  isInitialized : Bool

/-- The text of one line (`doc.getText` over `[line,0)..(line+1,0)`; the
trailing newline carries no word characters and is dropped). -/
def lineAt (lines : List String) (line : Nat) : String :=
  (lines.get? line).getD ""

/-- `getPositionOfLineAndCharacter`: offset of a position in the joined
text (one `"\n"` per preceding line). -/
def offsetOfPos (lines : List String) (pos : Pos) : Nat :=
  ((lines.take pos.line).foldl (fun acc l => acc + l.length + 1) 0) + pos.character

def getSourceIcon : Source → String
  | .configProvider => "⚙️"
  | .useToken => "🪝"
  | .getToken => "🔍"
  | .themeConfig => "🎨"
  | .json => "📄"
  | .css => "🎭"

def getSourceLabel : Source → String
  | .configProvider => "ConfigProvider"
  | .useToken => "useToken() Hook"
  | .getToken => "getToken() Hook"
  | .themeConfig => "ThemeConfig"
  | .json => "JSON Config"
  | .css => "CSS/LESS/SCSS"

/-- The (smaller) `commonTokens` list of `AntdLs.isCommonAntdToken`. -/
def isCommonAntdToken (word : String) : Bool :=
  ["colorPrimary", "colorSuccess", "colorWarning", "colorError", "colorInfo",
   "colorTextBase", "colorBgBase", "colorText", "colorTextSecondary",
   "borderRadius", "borderRadiusLG", "borderRadiusSM", "borderRadiusXS",
   "fontSize", "fontSizeLG", "fontSizeSM", "fontSizeXL"].any (fun s => decide (s = word))

/-- The `tokenInfo` description table of `AntdLs.getTokenUsageInfo`. -/
def tokenInfoTable : List (String × String) :=
  [("colorPrimary", "Primary brand color used for main actions and highlights"),
   ("colorSuccess", "Success state color for positive feedback"),
   ("colorWarning", "Warning state color for caution states"),
   ("colorError", "Error state color for negative feedback"),
   ("colorInfo", "Info state color for informational content"),
   ("borderRadius", "Base border radius for rounded corners"),
   ("borderRadiusLG", "Large border radius for prominent elements"),
   ("borderRadiusSM", "Small border radius for subtle rounding"),
   ("fontSize", "Base font size for body text"),
   ("fontSizeLG", "Large font size for headings"),
   ("fontSizeSM", "Small font size for secondary text")]

def getTokenUsageInfo (word : String) : String :=
  match tokenInfoTable.findSome? (fun kv => if kv.1 = word then some kv.2 else none) with
  | some info => "\n💡 **Usage**: " ++ info
  | none => ""

/-- The score used to sort definitions: same uri as the query document
plus same line as the query position. -/
def defScore (currentUri : Option String) (pos : Option Pos) (d : TokenData) : Nat :=
  (if currentUri = some d.uri then 1 else 0) +
    (if pos.map Pos.line = some d.position.line then 1 else 0)

/-- `def.uri.split('/').pop() || def.uri`. -/
def fileNameOf (uri : String) : String :=
  let last := ((splitOnChar '/' uri).getLast?).getD ""
  if last = "" then uri else last

def hoverDefLine (d : TokenData) : String :=
  "  - `" ++ d.value ++ "` *(" ++ fileNameOf d.uri ++
    (match d.context with
     | some c => ", " ++ c
     | none => "") ++ ")*\n"

/-- `AntdLs.createHoverFromTokenDefs`: stable sort by descending score,
group by source in first-appearance order, render each group, and append
the usage note for well-known names. -/
def createHoverFromTokenDefs (word : String) (tokenDefs : List TokenData)
    (currentUri : Option String) (pos : Option Pos) : String :=
  let sorted := tokenDefs.mergeSort
    (fun a b => decide (defScore currentUri pos b ≤ defScore currentUri pos a))
  let srcs := (sorted.map (fun d => d.source)).eraseDups
  let body := srcs.foldl (fun acc s =>
    acc ++ getSourceIcon s ++ " **" ++ getSourceLabel s ++ "**:\n" ++
      ((sorted.filter (fun d => d.source == s)).foldl
        (fun acc2 d => acc2 ++ hoverDefLine d) "") ++ "\n") ""
  let content := "**Ant Design Token**: `" ++ word ++ "`\n\n" ++ body
  let content2 :=
    if isCommonAntdToken word then content ++ getTokenUsageInfo word else content
  strTrim content2

/-- `AntdLs.createHoverFromResolvedValues`. -/
def createHoverFromResolvedValues (word : String) (values : List String) : String :=
  let valueList := joinSep ", " (values.map (fun v => "`" ++ v ++ "`"))
  "**Ant Design Token**: `" ++ word ++ "`\n\n📄 **Local Values**: " ++ valueList ++
    "\n\n*Resolved from local variable assignments*"

/-- `AntdLs.onHover`: missing document → `undefined`; not yet initialized
→ log, fire an asynchronous emergency re-index, and return `undefined`;
otherwise local resolution, then the token-property path, then the plain
word lookup, each gated by `findExactTokenDefinitionAtPosition`. -/
def onHover (st : ServerState) (doc : Option DocModel) (uri : String) (pos : Pos) :
    Option String :=
  match doc with
  | none => none
  | some d =>
      if st.isInitialized = false then none
      else
        let word := getWordAtPosition (lineAt d.lines pos.line) pos.character
        match resolveFullTokenValueAtPosition d.ast word (offsetOfPos d.lines pos) with
        | some vs => some (createHoverFromResolvedValues word vs)
        | none =>
            let tpHover : Option String :=
              match getTokenPropertyAtPosition (lineAt d.lines pos.line) pos.character with
              | some tp =>
                  match idxGet st.tokenIndex tp with
                  | some defs =>
                      if defs.isEmpty then none
                      else
                        match findExactTokenDefinitionAtPosition d.nodes pos word defs with
                        | some m =>
                            some (createHoverFromTokenDefs word [m] (some uri) (some pos))
                        | none => none
                  | none => none
              | none => none
            match tpHover with
            | some h => some h
            | none =>
                match idxGet st.tokenIndex word with
                | some defs =>
                    if defs.isEmpty then none
                    else
                      match findExactTokenDefinitionAtPosition d.nodes pos word defs with
                      | some m =>
                          some (createHoverFromTokenDefs word [m] (some uri) (some pos))
                      | none => none
                | none => none

/-- The search term of `AntdLs.onDefinition`:
`tokenProperty || word` (JS `||`, so an empty property string would also
fall back to the word). -/
def searchTermAt (d : DocModel) (pos : Pos) : String :=
  let word := getWordAtPosition (lineAt d.lines pos.line) pos.character
  match getTokenPropertyAtPosition (lineAt d.lines pos.line) pos.character with
  | some tp => if tp = "" then word else tp
  | none => word

/-- An LSP range (start and end positions). -/
structure TokenRange where
  startPos : Pos
  endPos : Pos
deriving DecidableEq, Repr

/-- An LSP location. -/
structure Location where
  uri : String
  range : TokenRange
deriving DecidableEq, Repr

/-! ## Extractor membership lemmas -/

theorem tokenObjectAdds_mem {uri : String} {src : Source} {ctx : Option String}
    {props : List Member} {k : String} {d : TokenData}
    (h : (k, d) ∈ tokenObjectAdds uri src ctx props) :
    ∃ pos line init, Member.assign k pos line init ∈ props ∧
      d = ⟨uri, extractValue init, pos, src, ctx⟩ := by
  simp only [tokenObjectAdds, List.mem_flatMap] at h
  obtain ⟨tp, htp, hmem⟩ := h
  cases tp with
  | assign n p l init =>
      simp at hmem
      obtain ⟨hk, hd⟩ := hmem
      subst hk
      exact ⟨p, l, init, htp, hd⟩
  | otherMember es => simp at hmem

theorem extractTokensFromThemeObject_mem {uri : String} {src : Source} {e : Expr}
    {k : String} {d : TokenData}
    (h : (k, d) ∈ extractTokensFromThemeObject uri src e) :
    ∃ pos init, d = ⟨uri, extractValue init, pos, src, some "theme-object"⟩ := by
  cases e with
  | objectLit ms raw =>
      simp only [extractTokensFromThemeObject, List.mem_flatMap] at h
      obtain ⟨m, hm, hmem⟩ := h
      have hsub : ∃ tokenProps : List Member,
          (k, d) ∈ tokenObjectAdds uri src (some "theme-object") tokenProps := by
        cases m with
        | assign n p l init =>
            by_cases hn : n = "token"
            · subst hn
              cases init with
              | objectLit tps r2 => exact ⟨tps, by simpa using hmem⟩
              | stringLit a b => simp at hmem
              | numericLit a b => simp at hmem
              | identExpr a => simp at hmem
              | propAccess a b c0 d0 e0 => simp at hmem
              | jsxElement a b c0 d0 => simp at hmem
              | jsxExprNode a b c0 => simp at hmem
              | templateNode a b => simp at hmem
              | varDecl a b c0 => simp at hmem
              | hookBindingDecl a b => simp at hmem
              | otherNode a b => simp at hmem
            · rw [show (match Member.assign n p l init with
                  | .assign "token" _ _ (.objectLit tokenProps _) =>
                      tokenObjectAdds uri src (some "theme-object") tokenProps
                  | _ => []) = [] from by
                    cases init <;> simp_all [String.ext_iff]] at hmem
              simp at hmem
        | otherMember es => simp at hmem
      obtain ⟨tps, hmem2⟩ := hsub
      obtain ⟨pos, line, init, hin, hd⟩ := tokenObjectAdds_mem hmem2
      exact ⟨pos, init, hd⟩
  | stringLit a b => simp [extractTokensFromThemeObject] at h
  | numericLit a b => simp [extractTokensFromThemeObject] at h
  | identExpr a => simp [extractTokensFromThemeObject] at h
  | propAccess a b c0 d0 e0 => simp [extractTokensFromThemeObject] at h
  | jsxElement a b c0 d0 => simp [extractTokensFromThemeObject] at h
  | jsxExprNode a b c0 => simp [extractTokensFromThemeObject] at h
  | templateNode a b => simp [extractTokensFromThemeObject] at h
  | varDecl a b c0 => simp [extractTokensFromThemeObject] at h
  | hookBindingDecl a b => simp [extractTokensFromThemeObject] at h
  | otherNode a b => simp [extractTokensFromThemeObject] at h

/-- Every ThemeConfig-pass entry stores `extractValue` of some property
initializer, with the extractor's uri and source. -/
theorem extractFromThemeConfig_mem {uri : String} {f : TsFile} {k : String} {d : TokenData}
    (h : (k, d) ∈ extractFromThemeConfig uri f) :
    ∃ pos init vname,
      d = ⟨uri, extractValue init, pos, .themeConfig, some vname⟩ := by
  simp only [extractFromThemeConfig, List.mem_flatMap] at h
  obtain ⟨e, he, hmem⟩ := h
  cases e with
  | varDecl vname ty init =>
      cases init with
      | none => simp at hmem
      | some i =>
          cases i with
          | objectLit ms raw =>
              dsimp only at hmem
              by_cases hid : (themeVarNames f).any (fun s => decide (s = vname)) = true
              · rw [if_pos hid] at hmem
                simp only [List.mem_flatMap] at hmem
                obtain ⟨m, hm, hmem2⟩ := hmem
                have hsub : ∃ tps : List Member,
                    (k, d) ∈ tokenObjectAdds uri .themeConfig (some vname) tps := by
                  cases m with
                  | assign n p l init2 =>
                      by_cases hn : n = "token"
                      · subst hn
                        cases init2 with
                        | objectLit tps r2 => exact ⟨tps, by simpa using hmem2⟩
                        | stringLit a b => simp at hmem2
                        | numericLit a b => simp at hmem2
                        | identExpr a => simp at hmem2
                        | propAccess a b c0 d0 e0 => simp at hmem2
                        | jsxElement a b c0 d0 => simp at hmem2
                        | jsxExprNode a b c0 => simp at hmem2
                        | templateNode a b => simp at hmem2
                        | varDecl a b c0 => simp at hmem2
                        | hookBindingDecl a b => simp at hmem2
                        | otherNode a b => simp at hmem2
                      · rw [show (match Member.assign n p l init2 with
                            | .assign "token" _ _ (.objectLit tokenProps _) =>
                                tokenObjectAdds uri .themeConfig (some vname) tokenProps
                            | _ => []) = [] from by
                              cases init2 <;> simp_all [String.ext_iff]] at hmem2
                        simp at hmem2
                  | otherMember es => simp at hmem2
                obtain ⟨tps, hmem3⟩ := hsub
                obtain ⟨pos, line, init3, _, hd⟩ := tokenObjectAdds_mem hmem3
                exact ⟨pos, init3, vname, hd⟩
              · rw [if_neg hid] at hmem
                simp at hmem
          | stringLit a b => simp at hmem
          | numericLit a b => simp at hmem
          | identExpr a => simp at hmem
          | propAccess a b c0 d0 e0 => simp at hmem
          | jsxElement a b c0 d0 => simp at hmem
          | jsxExprNode a b c0 => simp at hmem
          | templateNode a b => simp at hmem
          | varDecl a b c0 => simp at hmem
          | hookBindingDecl a b => simp at hmem
          | otherNode a b => simp at hmem
  | objectLit a b => simp at hmem
  | stringLit a b => simp at hmem
  | numericLit a b => simp at hmem
  | identExpr a => simp at hmem
  | propAccess a b c0 d0 e0 => simp at hmem
  | jsxElement a b c0 d0 => simp at hmem
  | jsxExprNode a b c0 => simp at hmem
  | templateNode a b => simp at hmem
  | hookBindingDecl a b => simp at hmem
  | otherNode a b => simp at hmem

/-- Every ConfigProvider-pass entry stores `extractValue` of some property
initializer, with the extractor's uri, `source = configProvider` and
context `'theme-object'`. -/
theorem extractFromConfigProvider_mem {uri : String} {f : TsFile} {k : String} {d : TokenData}
    (h : (k, d) ∈ extractFromConfigProvider uri f) :
    ∃ pos init,
      d = ⟨uri, extractValue init, pos, .configProvider, some "theme-object"⟩ := by
  simp only [extractFromConfigProvider, List.mem_flatMap] at h
  obtain ⟨e, he, hmem⟩ := h
  cases e with
  | jsxElement tag attrs children raw =>
      dsimp only at hmem
      by_cases htag : tag = "ConfigProvider"
      · rw [if_pos (by simpa using htag)] at hmem
        simp only [List.mem_flatMap] at hmem
        obtain ⟨a, ha, hmem2⟩ := hmem
        have hsub : ∃ ex : Expr, (k, d) ∈ extractTokensFromThemeObject uri .configProvider ex := by
          cases a with
          | attr n v =>
              by_cases hn : n = "theme"
              · subst hn
                cases v with
                | some ex => exact ⟨ex, by simpa using hmem2⟩
                | none => simp at hmem2
              · rw [show (match JsxAttr.attr n v with
                    | .attr "theme" (some ex) =>
                        extractTokensFromThemeObject uri .configProvider ex
                    | _ => []) = [] from by
                      cases v <;> simp_all [String.ext_iff]] at hmem2
                simp at hmem2
          | otherAttr es => simp at hmem2
        obtain ⟨ex, hmem3⟩ := hsub
        obtain ⟨pos, init, hd⟩ := extractTokensFromThemeObject_mem hmem3
        exact ⟨pos, init, hd⟩
      · rw [if_neg (by simpa using htag)] at hmem
        simp at hmem
  | stringLit a b => simp at hmem
  | numericLit a b => simp at hmem
  | identExpr a => simp at hmem
  | propAccess a b c0 d0 e0 => simp at hmem
  | objectLit a b => simp at hmem
  | jsxExprNode a b c0 => simp at hmem
  | templateNode a b => simp at hmem
  | varDecl a b c0 => simp at hmem
  | hookBindingDecl a b => simp at hmem
  | otherNode a b => simp at hmem

/-- Every ts-morph-pass entry is an accepted key storing the verbatim
`getText()` of its initializer, `source = themeConfig`, position at the
initializer's line start. -/
theorem extractWithTsMorph_mem {uri : String} {f : TsFile} {k : String} {d : TokenData}
    (h : (k, d) ∈ extractWithTsMorph uri f) :
    ∃ initLine init, acceptedTokenName k = true ∧
      d = ⟨uri, exprRaw init, ⟨initLine, 0⟩, .themeConfig, none⟩ := by
  simp only [extractWithTsMorph, List.mem_flatMap] at h
  obtain ⟨e, he, hmem⟩ := h
  cases e with
  | objectLit ms raw =>
      simp only [List.mem_flatMap] at hmem
      obtain ⟨m, hm, hmem2⟩ := hmem
      cases m with
      | assign key p l init =>
          dsimp only at hmem2
          by_cases hacc : acceptedTokenName key = true
          · rw [if_pos hacc] at hmem2
            simp at hmem2
            obtain ⟨hk, hd⟩ := hmem2
            subst hk
            exact ⟨l, init, hacc, hd⟩
          · rw [if_neg hacc] at hmem2
            simp at hmem2
      | otherMember es => simp at hmem2
  | stringLit a b => simp at hmem
  | numericLit a b => simp at hmem
  | identExpr a => simp at hmem
  | propAccess a b c0 d0 e0 => simp at hmem
  | jsxElement a b c0 d0 => simp at hmem
  | jsxExprNode a b c0 => simp at hmem
  | templateNode a b => simp at hmem
  | varDecl a b c0 => simp at hmem
  | hookBindingDecl a b => simp at hmem
  | otherNode a b => simp at hmem

/-- `AntdLs.onDefinition`: missing document or not initialized → `[]`;
otherwise one location per indexed definition of the search term, each
spanning the search term's length from the stored position. -/
def onDefinition (st : ServerState) (doc : Option DocModel) (pos : Pos) :
    List Location :=
  match doc with
  | none => []
  | some d =>
      if st.isInitialized = false then []
      else
        let searchTerm := searchTermAt d pos
        match idxGet st.tokenIndex searchTerm with
        | none => []
        | some defs =>
            if defs.isEmpty then []
            else
              defs.map (fun t =>
                ⟨t.uri, ⟨t.position,
                  ⟨t.position.line, t.position.character + searchTerm.length⟩⟩⟩)

/-! ## JSON reachability -/

/-- Values reachable from a document by a path of enumerated keys
(object keys and array index strings). -/
inductive JsonPathTo : Json → List String → Json → Prop where
  | nil (j : Json) : JsonPathTo j [] j
  | cons {j v w : Json} {k : String} {p : List String} :
      (k, v) ∈ childFields j → JsonPathTo v p w → JsonPathTo j (k :: p) w

/-- Every entry collected by the declarative extractor is an accepted
string- or number-valued key reachable from the walk's start, stored with
the `JSON.stringify`ed value, position `(0,0)`, `source = json`, and
context = the dotted key path from the start down to and including the
key itself. -/
theorem collectTokens_mem_spec (uri : String) (j : Json) (path : List String)
    (k : String) (d : TokenData) (h : (k, d) ∈ collectTokens uri j path) :
    ∃ pre v, JsonPathTo j (pre ++ [k]) v ∧ isStrOrNum v = true ∧
      acceptedTokenName k = true ∧
      d = ⟨uri, jsonStringify v, ⟨0, 0⟩, .json,
           some (joinSep "." (path ++ pre ++ [k]))⟩ := by
  rw [collectTokens_eq] at h
  simp only [List.mem_flatMap] at h
  obtain ⟨kv, hkv, hmem⟩ := h
  by_cases hacc : (isStrOrNum kv.2 && acceptedTokenName kv.1) = true
  · rw [if_pos hacc] at hmem
    simp [jsonEntry] at hmem
    obtain ⟨hk, hd⟩ := hmem
    subst hk
    simp at hacc
    exact ⟨[], kv.2, JsonPathTo.cons hkv (JsonPathTo.nil _), hacc.1, hacc.2,
      by simpa using hd⟩
  · rw [if_neg hacc] at hmem
    obtain ⟨pre, v, hpath, hsn, hackk, hd⟩ :=
      collectTokens_mem_spec uri kv.2 (path ++ [kv.1]) k d hmem
    exact ⟨kv.1 :: pre, v, JsonPathTo.cons hkv hpath, hsn, hackk,
      by simpa [List.append_assoc] using hd⟩
termination_by sizeOf j
decreasing_by
  exact sizeOf_lt_of_mem_childFields hkv

/-! ## Enumeration characterization and index provenance -/

/-- A path is cleanly enumerable: it denotes a file (with a supported
extension) reachable from the scan root through directories none of
which is in the ignore set. -/
inductive CleanFile : String → List FsEntry → String → Prop where
  | fileHere {dir name : String} {c : FileContent} {entries : List FsEntry} :
      FsEntry.file name c ∈ entries → extSupported (pathJoin dir name) = true →
      CleanFile dir entries (pathJoin dir name)
  | inDir {dir d : String} {sub entries : List FsEntry} {p : String} :
      FsEntry.dir d sub ∈ entries →
      (ignoredDirs.any (fun s => decide (s = d))) = false →
      CleanFile (pathJoin dir d) sub p →
      CleanFile dir entries p

theorem CleanFile.mono {dir : String} {entries entries' : List FsEntry} {p : String}
    (hsub : ∀ e ∈ entries, e ∈ entries') (h : CleanFile dir entries p) :
    CleanFile dir entries' p := by
  cases h with
  | fileHere hmem hext => exact CleanFile.fileHere (hsub _ hmem) hext
  | inDir hd hig hcf => exact CleanFile.inDir (hsub _ hd) hig hcf

theorem CleanFile.extSupported {dir : String} {entries : List FsEntry} {p : String}
    (h : CleanFile dir entries p) : AntdLsp.extSupported p = true := by
  induction h with
  | fileHere hmem hext => exact hext
  | inDir hd hig hcf ih => exact ih

/-- Everything `findAllFiles` returns is cleanly enumerable. -/
theorem findAllFilesC_clean :
    ∀ (dir : String) (entries : List FsEntry) (p : String) (c : FileContent),
      (p, c) ∈ findAllFilesC dir entries → CleanFile dir entries p
  | dir, [], p, c, h => by simp [findAllFilesC] at h
  | dir, FsEntry.file name cf :: rest, p, c, h => by
      rw [show findAllFilesC dir (FsEntry.file name cf :: rest) =
          findInEntry dir (FsEntry.file name cf) ++ findAllFilesC dir rest from rfl] at h
      rcases List.mem_append.mp h with h1 | h2
      · by_cases hext : extSupported (pathJoin dir name) = true
        · simp [findInEntry, hext] at h1
          obtain ⟨hp, hc⟩ := h1
          subst hp
          exact CleanFile.fileHere (List.mem_cons_self _ _) hext
        · simp [findInEntry, hext] at h1
      · exact (findAllFilesC_clean dir rest p c h2).mono
          (fun x hx => List.mem_cons_of_mem _ hx)
  | dir, FsEntry.dir dname sub :: rest, p, c, h => by
      rw [show findAllFilesC dir (FsEntry.dir dname sub :: rest) =
          findInEntry dir (FsEntry.dir dname sub) ++ findAllFilesC dir rest from rfl] at h
      rcases List.mem_append.mp h with h1 | h2
      · cases hig : (ignoredDirs.any (fun s => decide (s = dname))) with
        | true => simp [findInEntry, hig] at h1
        | false =>
            rw [show findInEntry dir (FsEntry.dir dname sub) =
                findAllFilesC (pathJoin dir dname) sub from by simp [findInEntry, hig]] at h1
            exact CleanFile.inDir (List.mem_cons_self _ _) hig
              (findAllFilesC_clean (pathJoin dir dname) sub p c h1)
      · exact (findAllFilesC_clean dir rest p c h2).mono
          (fun x hx => List.mem_cons_of_mem _ hx)
termination_by _ entries => sizeOf entries
decreasing_by
  all_goals simp
  all_goals omega

theorem file_entry_mem_findAllFilesC (dir : String) {name : String} {c : FileContent}
    {entries : List FsEntry} (hmem : FsEntry.file name c ∈ entries)
    (hext : extSupported (pathJoin dir name) = true) :
    (pathJoin dir name, c) ∈ findAllFilesC dir entries := by
  induction entries with
  | nil => simp at hmem
  | cons e rest ih =>
      rw [show findAllFilesC dir (e :: rest) = findInEntry dir e ++ findAllFilesC dir rest
        from rfl]
      rcases List.mem_cons.mp hmem with he | he
      · subst he
        simp [findInEntry, hext]
      · exact List.mem_append_right _ (ih he)

theorem dir_entry_sub_findAllFilesC (dir : String) {d : String} {sub : List FsEntry}
    {entries : List FsEntry} {x : String × FileContent}
    (hd : FsEntry.dir d sub ∈ entries)
    (hig : (ignoredDirs.any (fun s => decide (s = d))) = false)
    (hx : x ∈ findAllFilesC (pathJoin dir d) sub) :
    x ∈ findAllFilesC dir entries := by
  induction entries with
  | nil => simp at hd
  | cons e rest ih =>
      rw [show findAllFilesC dir (e :: rest) = findInEntry dir e ++ findAllFilesC dir rest
        from rfl]
      rcases List.mem_cons.mp hd with he | he
      · subst he
        exact List.mem_append_left _ (by simpa [findInEntry, hig] using hx)
      · exact List.mem_append_right _ (ih he)

/-- Every cleanly enumerable path is returned by `findAllFiles`. -/
theorem clean_mem_findAllFilesC {dir : String} {entries : List FsEntry} {p : String}
    (h : CleanFile dir entries p) :
    ∃ c, (p, c) ∈ findAllFilesC dir entries := by
  induction h with
  | fileHere hmem hext => exact ⟨_, file_entry_mem_findAllFilesC _ hmem hext⟩
  | inDir hd hig hcf ih =>
      obtain ⟨c, hc⟩ := ih
      exact ⟨c, dir_entry_sub_findAllFilesC _ hd hig hc⟩

theorem idxDatas_cons (k : String) (w : List TokenData) (tl : TokenIndex) :
    idxDatas ((k, w) :: tl) = w ++ idxDatas tl := by
  simp [idxDatas]

theorem mem_idxDatas_idxSet {idx : TokenIndex} {n : String} {v : List TokenData}
    {d : TokenData} (h : d ∈ idxDatas (idxSet idx n v)) :
    d ∈ idxDatas idx ∨ d ∈ v := by
  induction idx with
  | nil =>
      simp [idxSet, idxDatas] at h
      exact Or.inr h
  | cons e tl ih =>
      obtain ⟨k, w⟩ := e
      by_cases hk : k = n
      · rw [show idxSet ((k, w) :: tl) n v = (n, v) :: tl from by simp [idxSet, hk],
          idxDatas_cons] at h
        rcases List.mem_append.mp h with h1 | h1
        · exact Or.inr h1
        · exact Or.inl (by rw [idxDatas_cons]; exact List.mem_append_right _ h1)
      · rw [show idxSet ((k, w) :: tl) n v = (k, w) :: idxSet tl n v from by
            simp [idxSet, hk], idxDatas_cons] at h
        rcases List.mem_append.mp h with h1 | h1
        · exact Or.inl (by rw [idxDatas_cons]; exact List.mem_append_left _ h1)
        · rcases ih h1 with h2 | h2
          · exact Or.inl (by rw [idxDatas_cons]; exact List.mem_append_right _ h2)
          · exact Or.inr h2

theorem mem_of_idxGet {idx : TokenIndex} {n : String} {l : List TokenData}
    {d : TokenData} (hg : idxGet idx n = some l) (hd : d ∈ l) :
    d ∈ idxDatas idx := by
  induction idx with
  | nil => simp [idxGet] at hg
  | cons e tl ih =>
      obtain ⟨k, w⟩ := e
      by_cases hk : k = n
      · simp only [idxGet, if_pos hk, Option.some.injEq] at hg
        subst hg
        rw [idxDatas_cons]
        exact List.mem_append_left _ hd
      · simp only [idxGet, if_neg hk] at hg
        rw [idxDatas_cons]
        exact List.mem_append_right _ (ih hg)

theorem mem_idxDatas_addTokenToIndex {idx : TokenIndex} {n : String}
    {d0 d : TokenData} (h : d ∈ idxDatas (addTokenToIndex idx n d0)) :
    d ∈ idxDatas idx ∨ d = d0 := by
  unfold addTokenToIndex at h
  cases hg : idxGet idx n with
  | some l =>
      rw [hg] at h
      rcases mem_idxDatas_idxSet h with h1 | h1
      · exact Or.inl h1
      · rcases List.mem_append.mp h1 with h2 | h2
        · exact Or.inl (mem_of_idxGet hg h2)
        · simp at h2
          exact Or.inr h2
  | none =>
      rw [hg] at h
      simp only [idxDatas, List.flatMap_append] at h
      rcases List.mem_append.mp h with h1 | h1
      · exact Or.inl h1
      · simp at h1
        exact Or.inr h1

theorem mem_idxDatas_addAll {l : List (String × TokenData)} :
    ∀ {idx : TokenIndex} {d : TokenData}, d ∈ idxDatas (addAll idx l) →
      d ∈ idxDatas idx ∨ ∃ k, (k, d) ∈ l := by
  induction l with
  | nil => intro idx d h; exact Or.inl (by simpa [addAll] using h)
  | cons kd rest ih =>
      intro idx d h
      rw [show addAll idx (kd :: rest) = addAll (addTokenToIndex idx kd.1 kd.2) rest
        from rfl] at h
      rcases ih h with h1 | h1
      · rcases mem_idxDatas_addTokenToIndex h1 with h2 | h2
        · exact Or.inl h2
        · exact Or.inr ⟨kd.1, by simp [h2]⟩
      · obtain ⟨k, hk⟩ := h1
        exact Or.inr ⟨k, List.mem_cons_of_mem _ hk⟩

theorem mem_idxDatas_scanFiles {files : List (String × FileContent)} {d : TokenData}
    (h : d ∈ idxDatas (scanFiles files)) :
    ∃ pc ∈ files, ∃ k, (k, d) ∈ fileAdds pc.1 pc.2 := by
  suffices hgen : ∀ (fs : List (String × FileContent)) (idx : TokenIndex),
      d ∈ idxDatas (fs.foldl (fun i pc => addAll i (fileAdds pc.1 pc.2)) idx) →
      d ∈ idxDatas idx ∨ ∃ pc ∈ fs, ∃ k, (k, d) ∈ fileAdds pc.1 pc.2 by
    rcases hgen files [] h with h1 | h1
    · simp [idxDatas] at h1
    · exact h1
  intro fs
  induction fs with
  | nil => intro idx h0; exact Or.inl h0
  | cons pc rest ih =>
      intro idx h0
      rcases ih _ h0 with h1 | h1
      · rcases mem_idxDatas_addAll h1 with h2 | h2
        · exact Or.inl h2
        · exact Or.inr ⟨pc, by simp, h2⟩
      · obtain ⟨pc', hpc', hk⟩ := h1
        exact Or.inr ⟨pc', List.mem_cons_of_mem _ hpc', hk⟩

theorem extractFromCssLike_mem {uri content : String} {k : String} {d : TokenData}
    (h : (k, d) ∈ extractFromCssLike uri content) :
    ∃ i line col, (i, line) ∈ (splitOnChar '\n' content).enum ∧
      (col, k) ∈ cssMatches line.toList 0 ∧
      d = ⟨uri, k, ⟨i, col⟩, .css, none⟩ := by
  simp only [extractFromCssLike, List.mem_flatMap, List.mem_map] at h
  obtain ⟨li, hli, m, hm, hkd⟩ := h
  obtain ⟨hk, hd⟩ := Prod.mk.injEq .. ▸ hkd
  refine ⟨li.1, li.2, m.1, by simpa using hli, ?_, ?_⟩
  · rw [← hk]
    exact hm
  · rw [← hd, ← hk]

/-- Every entry any extractor produces for a file carries that file's
path as its uri. -/
theorem fileAdds_mem_uri {p : String} {c : FileContent} {k : String} {d : TokenData}
    (h : (k, d) ∈ fileAdds p c) : d.uri = p := by
  unfold fileAdds at h
  split at h
  · unfold extractFromTsxTs at h
    rcases List.mem_append.mp h with h1 | h1
    · rcases List.mem_append.mp h1 with h2 | h2
      · obtain ⟨pos, init, vname, hd⟩ := extractFromThemeConfig_mem h2
        rw [hd]
      · obtain ⟨pos, init, hd⟩ := extractFromConfigProvider_mem h2
        rw [hd]
    · split at h1
      · obtain ⟨line, init, _, hd⟩ := extractWithTsMorph_mem h1
        rw [hd]
      · simp at h1
  · split at h
    · unfold extractFromJson at h
      split at h
      · simp at h
      · obtain ⟨pre, v, _, _, _, hd⟩ := collectTokens_mem_spec _ _ _ _ _ h
        rw [hd]
    · split at h
      · obtain ⟨i, line, col, _, _, hd⟩ := extractFromCssLike_mem h
        rw [hd]
      · simp at h

/-! ## Style-variable scanner characterization -/

theorem takeWhile_length_le_of_get {l : List Char} {p : Char → Bool} {n : Nat}
    {x : Char} (hget : l.get? n = some x) (hpx : p x = false) :
    (l.takeWhile p).length ≤ n := by
  induction l generalizing n with
  | nil => simp at hget
  | cons c rest ih =>
      cases n with
      | zero =>
          have hx : c = x := by simpa using hget
          subst hx
          simp [List.takeWhile_cons, hpx]
      | succ m =>
          have hget' : rest.get? m = some x := by simpa using hget
          by_cases hpc : p c = true
          · have heq : List.takeWhile p (c :: rest) = c :: List.takeWhile p rest := by
              simp [List.takeWhile_cons, hpc]
            rw [heq, List.length_cons]
            have := ih hget'
            omega
          · have heq : List.takeWhile p (c :: rest) = [] := by
              simp [List.takeWhile_cons, hpc]
            simp [heq]

/-- Soundness of `cssMatches`: every reported match sits at an actual `@`
and captures exactly the maximal `[\w-]+` run after it. -/
theorem cssMatches_sound :
    ∀ (cs : List Char) (i col : Nat) (tok : String),
      (col, tok) ∈ cssMatches cs i →
      ∃ j, col = i + j ∧ cs.get? j = some '@' ∧ tok.data ≠ [] ∧
        tok.data = (cs.drop (j + 1)).takeWhile isWordChar
  | [], i, col, tok, h => by
      rw [show cssMatches [] i = [] from by rw [cssMatches.eq_def]] at h
      simp at h
  | c :: rest, i, col, tok, h => by
      rw [cssMatches.eq_def] at h
      dsimp only at h
      by_cases hc : c = '@'
      · rw [if_pos hc] at h
        by_cases hrun : (rest.takeWhile isWordChar).isEmpty
        · rw [if_pos hrun] at h
          obtain ⟨j, hcol, hat, hne, htok⟩ := cssMatches_sound rest (i + 1) col tok h
          exact ⟨j + 1, by omega, by simpa using hat, hne, by simpa using htok⟩
        · rw [if_neg hrun] at h
          rcases List.mem_cons.mp h with h1 | h1
          · obtain ⟨hcol, htok⟩ := Prod.mk.injEq .. ▸ h1
            refine ⟨0, by omega, by simp [hc], ?_, ?_⟩
            · rw [htok]
              intro hnil
              simp at hnil
              exact hrun (by simp [hnil])
            · rw [htok]
              simp
          · obtain ⟨j, hcol, hat, hne, htok⟩ :=
              cssMatches_sound (rest.drop (rest.takeWhile isWordChar).length)
                (i + 1 + (rest.takeWhile isWordChar).length) col tok h1
            refine ⟨1 + (rest.takeWhile isWordChar).length + j, by omega, ?_, hne, ?_⟩
            · rw [show (1 + (rest.takeWhile isWordChar).length + j) =
                  ((rest.takeWhile isWordChar).length + j) + 1 from by omega,
                List.get?_cons_succ, ← List.get?_drop]
              exact hat
            · rw [htok]
              have harg : (List.drop (j + 1)
                    (List.drop (rest.takeWhile isWordChar).length rest)) =
                  List.drop (1 + (rest.takeWhile isWordChar).length + j + 1) (c :: rest) := by
                rw [List.drop_drop]
                rw [show (1 + (rest.takeWhile isWordChar).length + j + 1) =
                    ((rest.takeWhile isWordChar).length + (j + 1)) + 1 from by omega]
                rw [List.drop_succ_cons]
              rw [harg]
      · rw [if_neg hc] at h
        obtain ⟨j, hcol, hat, hne, htok⟩ := cssMatches_sound rest (i + 1) col tok h
        exact ⟨j + 1, by omega, by simpa using hat, hne, by simpa using htok⟩
termination_by cs _ _ _ => cs.length
decreasing_by
  · simp
  · simp
    omega
  · simp

/-- Completeness of `cssMatches`: every `@` followed by at least one
`[\w-]` character is reported, at its exact column, with the maximal
run as the captured identifier. -/
theorem cssMatches_complete :
    ∀ (cs : List Char) (i j : Nat), cs.get? j = some '@' →
      ((cs.drop (j + 1)).takeWhile isWordChar) ≠ [] →
      (i + j, String.mk ((cs.drop (j + 1)).takeWhile isWordChar)) ∈ cssMatches cs i
  | [], i, j, hat, hne => by simp at hat
  | c :: rest, i, 0, hat, hne => by
      simp at hat
      subst hat
      rw [cssMatches.eq_def]
      dsimp only
      rw [if_pos rfl]
      rw [if_neg (by simpa [List.isEmpty_iff] using by simpa using hne)]
      simpa using List.mem_cons_self _ _
  | c :: rest, i, j + 1, hat, hne => by
      have hat' : rest.get? j = some '@' := by simpa using hat
      have hne' : ((rest.drop (j + 1)).takeWhile isWordChar) ≠ [] := by
        simpa [List.drop_succ_cons] using hne
      rw [cssMatches.eq_def]
      dsimp only
      by_cases hc : c = '@'
      · rw [if_pos hc]
        by_cases hrun : (rest.takeWhile isWordChar).isEmpty
        · rw [if_pos hrun]
          have := cssMatches_complete rest (i + 1) j hat' hne'
          rw [show i + (j + 1) = (i + 1) + j from by omega]
          simpa [List.drop_succ_cons] using this
        · rw [if_neg hrun]
          have hjge : (rest.takeWhile isWordChar).length ≤ j :=
            takeWhile_length_le_of_get hat' (by simp [isWordChar])
          have hget2 : (rest.drop (rest.takeWhile isWordChar).length).get?
              (j - (rest.takeWhile isWordChar).length) = some '@' := by
            rw [List.get?_drop]
            rw [show ((rest.takeWhile isWordChar).length +
                (j - (rest.takeWhile isWordChar).length)) = j from by omega]
            exact hat'
          have hne2 : (((rest.drop (rest.takeWhile isWordChar).length).drop
              ((j - (rest.takeWhile isWordChar).length) + 1)).takeWhile isWordChar) ≠ [] := by
            rw [List.drop_drop]
            rw [show ((rest.takeWhile isWordChar).length +
                (j - (rest.takeWhile isWordChar).length + 1)) = j + 1 from by omega]
            exact hne'
          have := cssMatches_complete (rest.drop (rest.takeWhile isWordChar).length)
            (i + 1 + (rest.takeWhile isWordChar).length)
            (j - (rest.takeWhile isWordChar).length) hget2 hne2
          refine List.mem_cons_of_mem _ ?_
          rw [show i + (j + 1) = (i + 1 + (rest.takeWhile isWordChar).length) +
              (j - (rest.takeWhile isWordChar).length) from by omega]
          have hdroparg : ((rest.drop (rest.takeWhile isWordChar).length).drop
              ((j - (rest.takeWhile isWordChar).length) + 1)) =
              ((c :: rest).drop (j + 1 + 1)) := by
            rw [List.drop_drop]
            rw [show ((rest.takeWhile isWordChar).length +
                (j - (rest.takeWhile isWordChar).length + 1)) = j + 1 from by omega]
            simp [List.drop_succ_cons]
          rw [← hdroparg]
          exact this
      · rw [if_neg hc]
        have := cssMatches_complete rest (i + 1) j hat' hne'
        rw [show i + (j + 1) = (i + 1) + j from by omega]
        simpa [List.drop_succ_cons] using this
termination_by cs _ _ => cs.length
decreasing_by
  · simp
  · simp
    omega
  · simp

/-! ## Word-run characterization for `getWordAtPosition` -/

theorem head_drop_takeWhile (p : Char → Bool) :
    ∀ (l : List Char) (c : Char),
      (l.drop (l.takeWhile p).length).head? = some c → p c = false := by
  intro l
  induction l with
  | nil => intro c h; simp at h
  | cons a l' ih =>
      intro c h
      by_cases hpa : p a = true
      · rw [show ((a :: l').takeWhile p) = a :: l'.takeWhile p from by
            simp [List.takeWhile_cons, hpa]] at h
        simp only [List.length_cons, List.drop_succ_cons] at h
        exact ih c h
      · rw [show ((a :: l').takeWhile p) = [] from by
            simp [List.takeWhile_cons, hpa]] at h
        simp at h
        subst h
        simpa using hpa

theorem wordRuns_start_le :
    ∀ (cs : List Char) (i s : Nat) (w : String), (s, w) ∈ wordRuns cs i → i ≤ s
  | [], i, s, w, h => by
      rw [show wordRuns [] i = [] from by rw [wordRuns.eq_def]] at h
      simp at h
  | c :: rest, i, s, w, h => by
      rw [wordRuns.eq_def] at h
      dsimp only at h
      by_cases hw : isWordChar c = true
      · rw [if_pos hw] at h
        rcases List.mem_cons.mp h with h1 | h1
        · obtain ⟨hs, _⟩ := Prod.mk.injEq .. ▸ h1
          omega
        · have := wordRuns_start_le (rest.drop (rest.takeWhile isWordChar).length)
            (i + 1 + (rest.takeWhile isWordChar).length) s w h1
          omega
      · rw [if_neg hw] at h
        have := wordRuns_start_le rest (i + 1) s w h
        omega
termination_by cs _ _ _ => cs.length
decreasing_by
  · simp
    omega
  · simp

theorem wordRuns_start_gt {cs : List Char} {i s : Nat} {w : String}
    (h : (s, w) ∈ wordRuns cs i)
    (hhead : ∀ c, cs.head? = some c → isWordChar c = false) : i + 1 ≤ s := by
  cases cs with
  | nil =>
      rw [show wordRuns [] i = [] from by rw [wordRuns.eq_def]] at h
      simp at h
  | cons c rest =>
      have hc := hhead c rfl
      rw [wordRuns.eq_def] at h
      dsimp only at h
      rw [if_neg (by simp [hc])] at h
      exact wordRuns_start_le rest (i + 1) s w h

theorem string_mk_length (l : List Char) : (String.mk l).length = l.length := rfl

/-- Distinct runs are separated by at least one non-word character, so
their inclusive spans are disjoint. -/
theorem wordRuns_pairwise :
    ∀ (cs : List Char) (i : Nat),
      List.Pairwise (fun a b => a.1 + a.2.length < b.1) (wordRuns cs i)
  | [], i => by
      rw [show wordRuns [] i = [] from by rw [wordRuns.eq_def]]
      exact List.Pairwise.nil
  | c :: rest, i => by
      rw [wordRuns.eq_def]
      dsimp only
      by_cases hw : isWordChar c = true
      · rw [if_pos hw]
        refine List.Pairwise.cons ?_
          (wordRuns_pairwise (rest.drop (rest.takeWhile isWordChar).length)
            (i + 1 + (rest.takeWhile isWordChar).length))
        intro b hb
        have hbs := wordRuns_start_gt hb
          (fun c' hc' => head_drop_takeWhile isWordChar rest c' hc')
        simp only [string_mk_length, List.length_cons]
        omega
      · rw [if_neg hw]
        exact wordRuns_pairwise rest (i + 1)
termination_by cs _ => cs.length
decreasing_by
  · simp
    omega
  · simp

/-- Soundness of `wordRuns`: every reported run is a nonempty maximal
`[\w-]+` run — maximal to the right by `takeWhile`, and starting either
at the line start or right after a non-word character. -/
theorem wordRuns_sound :
    ∀ (cs : List Char) (i s : Nat) (w : String), (s, w) ∈ wordRuns cs i →
      ∃ j, s = i + j ∧ w.data = (cs.drop j).takeWhile isWordChar ∧ w.data ≠ [] ∧
        (j = 0 ∨ ∃ c', cs.get? (j - 1) = some c' ∧ isWordChar c' = false)
  | [], i, s, w, h => by
      rw [show wordRuns [] i = [] from by rw [wordRuns.eq_def]] at h
      simp at h
  | c :: rest, i, s, w, h => by
      rw [wordRuns.eq_def] at h
      dsimp only at h
      by_cases hw : isWordChar c = true
      · rw [if_pos hw] at h
        rcases List.mem_cons.mp h with h1 | h1
        · obtain ⟨hs, hwv⟩ := Prod.mk.injEq .. ▸ h1
          refine ⟨0, by omega, ?_, ?_, Or.inl rfl⟩
          · rw [hwv]
            simp [List.takeWhile_cons, hw]
          · rw [hwv]
            simp
        · obtain ⟨j, hsj, hwd, hne, hb⟩ :=
            wordRuns_sound (rest.drop (rest.takeWhile isWordChar).length)
              (i + 1 + (rest.takeWhile isWordChar).length) s w h1
          have hj_ne : j ≠ 0 := by
            intro hb0
            subst hb0
            rw [List.drop_zero] at hwd
            rcases hdrop : rest.drop (rest.takeWhile isWordChar).length with _ | ⟨x, tail⟩
            · rw [hdrop] at hwd
              simp at hwd
              exact hne hwd
            · have hx : isWordChar x = false :=
                head_drop_takeWhile isWordChar rest x (by rw [hdrop]; rfl)
              rw [hdrop] at hwd
              simp [List.takeWhile_cons, hx] at hwd
              exact hne hwd
          refine ⟨1 + (rest.takeWhile isWordChar).length + j, by omega, ?_, hne, ?_⟩
          · rw [hwd]
            have harg : (List.drop j
                  (List.drop (rest.takeWhile isWordChar).length rest)) =
                List.drop (1 + (rest.takeWhile isWordChar).length + j) (c :: rest) := by
              rw [List.drop_drop]
              rw [show (1 + (rest.takeWhile isWordChar).length + j) =
                  ((rest.takeWhile isWordChar).length + j) + 1 from by omega]
              rw [List.drop_succ_cons]
            rw [harg]
          · rcases hb with hb0 | ⟨c', hc', hcw⟩
            · exact absurd hb0 hj_ne
            · refine Or.inr ⟨c', ?_, hcw⟩
              rw [show (1 + (rest.takeWhile isWordChar).length + j - 1) =
                  ((rest.takeWhile isWordChar).length + (j - 1)) + 1 from by omega]
              simp only [List.get?_cons_succ]
              rw [← List.get?_drop]
              exact hc'
      · rw [if_neg hw] at h
        obtain ⟨j, hsj, hwd, hne, hb⟩ := wordRuns_sound rest (i + 1) s w h
        refine ⟨j + 1, by omega, by simpa using hwd, hne, ?_⟩
        rcases j with _ | j'
        · exact Or.inr ⟨c, by simp, by simpa using hw⟩
        · rcases hb with hb0 | ⟨c', hc', hcw⟩
          · simp at hb0
          · exact Or.inr ⟨c', by simpa using hc', hcw⟩
termination_by cs _ _ _ => cs.length
decreasing_by
  · simp
    omega
  · simp

/-- Two runs whose inclusive spans contain the same column coincide. -/
theorem wordRuns_unique_containing {cs : List Char} {ch : Nat}
    {a b : Nat × String} (ha : a ∈ wordRuns cs 0) (hb : b ∈ wordRuns cs 0)
    (hca : a.1 ≤ ch ∧ ch ≤ a.1 + a.2.length)
    (hcb : b.1 ≤ ch ∧ ch ≤ b.1 + b.2.length) : a = b := by
  by_contra hne
  have hp := wordRuns_pairwise cs 0
  have hp' : List.Pairwise
      (fun x y : Nat × String => x.1 + x.2.length < y.1 ∨ y.1 + y.2.length < x.1)
      (wordRuns cs 0) := hp.imp (fun h => Or.inl h)
  have hsym : Symmetric
      (fun x y : Nat × String => x.1 + x.2.length < y.1 ∨ y.1 + y.2.length < x.1) := by
    intro x y h
    tauto
  have := List.Pairwise.forall hsym hp' ha hb hne
  rcases this with h | h <;> omega

/-- `getWordAtPosition` returns the run whose inclusive span contains the
cursor. -/
theorem getWordAtPosition_of_mem {line : String} {ch s : Nat} {w : String}
    (hmem : (s, w) ∈ wordRuns line.toList 0) (hle : s ≤ ch)
    (hge : ch ≤ s + w.length) : getWordAtPosition line ch = w := by
  have hpred : (fun sw : Nat × String =>
      decide (sw.1 ≤ ch) && decide (ch ≤ sw.1 + sw.2.length)) (s, w) = true := by
    simp [hle, hge]
  have hsome : ((wordRuns line.toList 0).find? (fun sw =>
      decide (sw.1 ≤ ch) && decide (ch ≤ sw.1 + sw.2.length))).isSome :=
    List.find?_isSome.mpr ⟨(s, w), hmem, hpred⟩
  obtain ⟨x, hx⟩ := Option.isSome_iff_exists.mp hsome
  have hxmem := List.mem_of_find?_eq_some hx
  have hxpred := List.find?_some hx
  have hxc : x.1 ≤ ch ∧ ch ≤ x.1 + x.2.length := by simpa using hxpred
  have hxeq : x = (s, w) := wordRuns_unique_containing hxmem hmem hxc ⟨hle, hge⟩
  simp only [getWordAtPosition, hx, hxeq]

/-! ## A concrete demonstration workspace

`App.tsx` holds `<ConfigProvider theme={{ token: { colorPrimary: '#1890ff' } }}>`,
`theme.json` holds `{"theme":{"token":{"colorPrimary":"#1890ff"}}}`. -/

def demoLit : Expr := .stringLit "#1890ff" "'#1890ff'"

def demoTokenObj : Expr :=
  .objectLit [.assign "colorPrimary" ⟨7, 8⟩ 7 demoLit] "\x7b colorPrimary: '#1890ff' \x7d"

def demoThemeObj : Expr :=
  .objectLit [.assign "token" ⟨6, 6⟩ 6 demoTokenObj]
    "\x7b token: \x7b colorPrimary: '#1890ff' \x7d \x7d"

def demoAppTsx : FileContent :=
  { cssText := "",
    jsonParsed := none,
    tsFile := [.jsxElement "ConfigProvider" [.attr "theme" (some demoThemeObj)] []
                 "<ConfigProvider/>"] }

def demoJsonDoc : Json :=
  .obj [("theme", .obj [("token", .obj [("colorPrimary", .str "#1890ff")])])]

def demoThemeJson : FileContent :=
  { cssText := "", jsonParsed := some demoJsonDoc, tsFile := [] }

def demoWorkspace : List FsEntry :=
  [.file "App.tsx" demoAppTsx, .file "theme.json" demoThemeJson]

/-- The ConfigProvider-pass definition of `colorPrimary`. -/
def demoCfgTd : TokenData :=
  ⟨"root/App.tsx", "#1890ff", ⟨7, 8⟩, .configProvider, some "theme-object"⟩

/-- The duplicate heuristic (ts-morph) pass definition of `colorPrimary`. -/
def demoMorphTd : TokenData :=
  ⟨"root/App.tsx", "'#1890ff'", ⟨7, 0⟩, .themeConfig, none⟩

/-- The declarative-document definition of `colorPrimary`. -/
def demoJsonTd : TokenData :=
  ⟨"root/theme.json", "\"#1890ff\"", ⟨0, 0⟩, .json, some "theme.token.colorPrimary"⟩

/-- A `ConfigProvider` definition of `colorIgnored`, placed inside
`node_modules`. -/
def demoIgnoredTsx : FileContent :=
  { cssText := "",
    jsonParsed := none,
    tsFile := [.jsxElement "ConfigProvider"
      [.attr "theme" (some (.objectLit
        [.assign "token" ⟨0, 0⟩ 0
          (.objectLit [.assign "colorIgnored" ⟨0, 0⟩ 0 (.stringLit "#000" "'#000'")] "x")]
        "y"))] [] "<ConfigProvider/>"] }

/-- The demo workspace extended with an ignored directory holding a file
with valid token syntax. -/
def demoWorkspace6 : List FsEntry :=
  [.file "App.tsx" demoAppTsx,
   .dir "node_modules" [.file "ignored.tsx" demoIgnoredTsx],
   .file "theme.json" demoThemeJson]

/-- An open document holding one empty line. -/
def demoEmptyDoc : DocModel := ⟨[""], [], []⟩

/-- An open document whose first line is `cp`. -/
def demoCpDoc : DocModel := ⟨["cp"], [], []⟩

/-- A file declaring `const theme = { token: { colorPrimary: '#1890ff' } }`. -/
def demoChainFile : TsFile := [.varDecl "theme" none (some demoThemeObj)]

/-! ## Claims -/

/-- C1: the Token Index retains every discovered definition of a name:
appending never overwrites or removes an earlier entry and leaves other
names untouched, and scanning a workspace with a ConfigProvider
definition and a declarative-document definition of `colorPrimary`
yields at least two `colorPrimary` entries with differing sourceKinds. -/
theorem c1_index_retains_all_definitions :
    (∀ (idx : TokenIndex) (n : String) (d : TokenData),
        idxGet (addTokenToIndex idx n d) n = some (((idxGet idx n).getD []) ++ [d])) ∧
    (∀ (idx : TokenIndex) (n m : String) (d : TokenData), m ≠ n →
        idxGet (addTokenToIndex idx n d) m = idxGet idx m) ∧
    (idxGet (scanAndIndexTokens "root" demoWorkspace) "colorPrimary" =
        some [demoCfgTd, demoMorphTd, demoJsonTd] ∧
      2 ≤ [demoCfgTd, demoMorphTd, demoJsonTd].length ∧
      demoCfgTd.source ≠ demoJsonTd.source) :=
  ⟨idxGet_addTokenToIndex_self, idxGet_addTokenToIndex_other, by decide⟩

/-- C1 witness: the non-interference conjunct applied at a concrete
index, name and entry. -/
theorem c1_index_retains_all_definitions_witness :
    ("colorPrimary" : String) ≠ "borderRadius" ∧
    idxGet (addTokenToIndex [] "borderRadius" demoCfgTd) "colorPrimary" =
      idxGet ([] : TokenIndex) "colorPrimary" :=
  ⟨by decide,
   c1_index_retains_all_definitions.2.1 [] "borderRadius" "colorPrimary" demoCfgTd
     (by decide)⟩

/-- C2 counterexample: on a fresh, never-scanned server a hover query
answers `undefined` and a definition query answers `[]` — exactly the
same empty answers an initialized server gives when nothing matches —
not a distinguishable "not ready" response. -/
theorem c2_counterexample :
    onHover ⟨[], "", false⟩ (some demoEmptyDoc) "file:///root/App.tsx" ⟨0, 0⟩ = none ∧
    onDefinition ⟨[], "", false⟩ (some demoEmptyDoc) ⟨0, 0⟩ = [] ∧
    onHover ⟨[], "", true⟩ (some demoEmptyDoc) "file:///root/App.tsx" ⟨0, 0⟩ = none ∧
    onDefinition ⟨[], "", true⟩ (some demoEmptyDoc) ⟨0, 0⟩ = [] := by
  refine ⟨rfl, rfl, ?_, ?_⟩
  · simp [onHover, demoEmptyDoc, lineAt, getWordAtPosition, wordRuns,
      resolveFullTokenValueAtPosition, allNodes, getTokenPropertyAtPosition,
      tokenPropLoop, findTokMatch, idxGet, offsetOfPos]
  · simp [onDefinition, demoEmptyDoc, searchTermAt, lineAt, getWordAtPosition,
      wordRuns, getTokenPropertyAtPosition, tokenPropLoop, findTokMatch, idxGet]

/-- C2 (amended): every hover or definition query issued before the
initial scan has completed (`isInitialized = false`) — in particular when
no workspace root was ever supplied — returns the empty answer
(`undefined` for hover, `[]` for definition), with no distinguishable
"not ready" marker. -/
theorem c2_amended_not_ready_is_empty (st : ServerState) (doc : Option DocModel)
    (uri : String) (pos : Pos) (h : st.isInitialized = false) :
    onHover st doc uri pos = none ∧ onDefinition st doc pos = [] := by
  cases doc with
  | none => exact ⟨rfl, rfl⟩
  | some d => constructor <;> simp [onHover, onDefinition, h]

/-- C2 witness. -/
theorem c2_amended_not_ready_is_empty_witness :
    (ServerState.mk [] "" false).isInitialized = false ∧
    (onHover ⟨[], "", false⟩ (some demoEmptyDoc) "u" ⟨0, 0⟩ = none ∧
     onDefinition ⟨[], "", false⟩ (some demoEmptyDoc) ⟨0, 0⟩ = []) :=
  ⟨rfl, c2_amended_not_ready_is_empty ⟨[], "", false⟩ (some demoEmptyDoc) "u" ⟨0, 0⟩ rfl⟩

/-- C3 counterexample: the ConfigProvider pass stores the cooked `.text`
of the string literal `'#1890ff'` — `#1890ff` — which is not the
literal's exact source text (`'#1890ff'`, quotes included), so "the
stored value equals the literal's exact source text" fails as stated. -/
theorem c3_counterexample :
    extractFromConfigProvider "root/App.tsx" demoAppTsx.tsFile =
      [("colorPrimary", demoCfgTd)] ∧
    exprRaw demoLit = "'#1890ff'" ∧
    demoCfgTd.value ≠ exprRaw demoLit := by
  decide

/-- C3 (amended): the ThemeConfig and ConfigProvider passes store
`extractValue` of the initializer — the cooked `.text` (quotes stripped,
escapes interpreted) for string/numeric literals, the name for a bare
identifier, the verbatim source text for everything else; the ts-morph
heuristic pass stores the verbatim `getText()`; the declarative extractor
stores the `JSON.stringify` re-serialization of the parsed value. -/
theorem c3_amended_value_fidelity :
    (∀ t r, extractValue (.stringLit t r) = t) ∧
    (∀ t r, extractValue (.numericLit t r) = t) ∧
    (∀ n, extractValue (.identExpr n) = n) ∧
    (∀ obj n a b raw, extractValue (.propAccess obj n a b raw) = raw) ∧
    (∀ raw es, extractValue (.otherNode raw es) = raw) ∧
    (∀ (uri : String) (f : TsFile) (k : String) (d : TokenData),
        (k, d) ∈ extractFromThemeConfig uri f →
        ∃ pos init vname, d = ⟨uri, extractValue init, pos, .themeConfig, some vname⟩) ∧
    (∀ (uri : String) (f : TsFile) (k : String) (d : TokenData),
        (k, d) ∈ extractFromConfigProvider uri f →
        ∃ pos init, d = ⟨uri, extractValue init, pos, .configProvider, some "theme-object"⟩) ∧
    (∀ (uri : String) (f : TsFile) (k : String) (d : TokenData),
        (k, d) ∈ extractWithTsMorph uri f →
        ∃ initLine init, acceptedTokenName k = true ∧
          d = ⟨uri, exprRaw init, ⟨initLine, 0⟩, .themeConfig, none⟩) ∧
    (∀ (uri : String) (j : Json) (k : String) (d : TokenData),
        (k, d) ∈ extractFromJson uri (some j) →
        ∃ pre v, JsonPathTo j (pre ++ [k]) v ∧ isStrOrNum v = true ∧
          d.value = jsonStringify v) :=
  ⟨fun _ _ => rfl, fun _ _ => rfl, fun _ => rfl, fun _ _ _ _ _ => rfl,
   fun _ _ => rfl,
   fun _ _ _ _ h => extractFromThemeConfig_mem h,
   fun _ _ _ _ h => extractFromConfigProvider_mem h,
   fun _ _ _ _ h => extractWithTsMorph_mem h,
   fun uri j k d h => by
     obtain ⟨pre, v, hp, hs, _, hd⟩ :=
       collectTokens_mem_spec uri j [] k d (by simpa [extractFromJson] using h)
     exact ⟨pre, v, hp, hs, by rw [hd]⟩⟩

/-- C3 witness: the ConfigProvider conjunct applied to the demo entry. -/
theorem c3_amended_value_fidelity_witness :
    (("colorPrimary", demoCfgTd) ∈ extractFromConfigProvider "root/App.tsx" demoAppTsx.tsFile) ∧
    ∃ pos init, demoCfgTd =
      ⟨"root/App.tsx", extractValue init, pos, .configProvider, some "theme-object"⟩ :=
  ⟨by decide,
   c3_amended_value_fidelity.2.2.2.2.2.2.1 "root/App.tsx" demoAppTsx.tsFile
     "colorPrimary" demoCfgTd (by decide)⟩

/-- C4: a go-to-definition query that resolves a name with at least one
indexed match returns one location per matching definition, in index
order, each on the definition's line and spanning exactly the resolved
name's length from the stored position. -/
theorem c4_definition_span (st : ServerState) (d : DocModel) (pos : Pos)
    (defs : List TokenData) (hinit : st.isInitialized = true)
    (hlookup : idxGet st.tokenIndex (searchTermAt d pos) = some defs)
    (hne : defs ≠ []) :
    (onDefinition st (some d) pos).length = defs.length ∧
    (∀ i, (onDefinition st (some d) pos).get? i = (defs.get? i).map (fun t =>
        Location.mk t.uri ⟨t.position,
          ⟨t.position.line, t.position.character + (searchTermAt d pos).length⟩⟩)) ∧
    (∀ loc ∈ onDefinition st (some d) pos,
        loc.range.endPos.line = loc.range.startPos.line ∧
        loc.range.endPos.character =
          loc.range.startPos.character + (searchTermAt d pos).length) := by
  have hres : onDefinition st (some d) pos = defs.map (fun t =>
      Location.mk t.uri ⟨t.position,
        ⟨t.position.line, t.position.character + (searchTermAt d pos).length⟩⟩) := by
    simp only [onDefinition, hinit, Bool.true_eq_false, if_false, hlookup]
    rw [if_neg (by simpa using hne)]
  refine ⟨by simp [hres], fun i => by simp [hres], ?_⟩
  intro loc hloc
  rw [hres] at hloc
  simp only [List.mem_map] at hloc
  obtain ⟨t, ht, hl⟩ := hloc
  rw [← hl]
  exact ⟨rfl, rfl⟩

/-- C4 witness: a document whose line is `cp`, queried at `(0,0)`, against
an index holding one `cp` definition. -/
theorem c4_definition_span_witness :
    ((ServerState.mk [("cp", [demoCfgTd])] "root" true).isInitialized = true) ∧
    (idxGet [("cp", [demoCfgTd])] (searchTermAt demoCpDoc ⟨0, 0⟩) = some [demoCfgTd]) ∧
    ([demoCfgTd] ≠ ([] : List TokenData)) ∧
    ((onDefinition ⟨[("cp", [demoCfgTd])], "root", true⟩ (some demoCpDoc) ⟨0, 0⟩).length = 1) := by
  have hw : wordRuns ['c', 'p'] 0 = [(0, "cp")] := by
    rw [wordRuns.eq_def]
    simp only [show isWordChar 'c' = true from rfl,
      show List.takeWhile isWordChar ['p'] = ['p'] from rfl, if_true]
    rw [wordRuns.eq_def]
    simp
  have hi1 : iterStops ['c', 'p'] = [0] := by
    rw [iterStops.eq_def]
    simp [show List.takeWhile isWChar ['c', 'p'] = ['c', 'p'] from rfl]
  have hi2 : iterStops ['p'] = [0] := by
    rw [iterStops.eq_def]
    simp [show List.takeWhile isWChar ['p'] = ['p'] from rfl]
  have hm1 : tokMatchAt ['c', 'p'] = none := by
    simp [tokMatchAt, hi1, show tokenDotWordAt ['c', 'p'] = none from rfl]
  have hm2 : tokMatchAt ['p'] = none := by
    simp [tokMatchAt, hi2, show tokenDotWordAt ['p'] = none from rfl]
  have hfm : findTokMatch ['c', 'p'] = none := by
    simp [findTokMatch, hm1, hm2]
  have htp : tokenPropLoop ['c', 'p'] 0 0 = none := by
    rw [tokenPropLoop.eq_def]
    split
    · rfl
    · simp_all
  have hterm : searchTermAt demoCpDoc ⟨0, 0⟩ = "cp" := by
    simp [searchTermAt, demoCpDoc, lineAt, getWordAtPosition,
      show ("cp" : String).toList = ['c', 'p'] from rfl, hw,
      getTokenPropertyAtPosition, htp]
  have hlookup : idxGet [("cp", [demoCfgTd])] (searchTermAt demoCpDoc ⟨0, 0⟩) =
      some [demoCfgTd] := by rw [hterm]; rfl
  refine ⟨rfl, hlookup, by simp, ?_⟩
  have h := c4_definition_span ⟨[("cp", [demoCfgTd])], "root", true⟩ demoCpDoc ⟨0, 0⟩
    [demoCfgTd] rfl hlookup (by simp)
  simpa using h.1

/-- C5 counterexample: on
`{"theme":{"token":{"colorPrimary":"#1890ff"}}}` the stored context is
`theme.token.colorPrimary` — the dotted path *including* the key — not
`theme.token` as the claim states. -/
theorem c5_counterexample :
    extractFromJson "root/theme.json" (some demoJsonDoc) =
      [("colorPrimary", demoJsonTd)] ∧
    demoJsonTd.context = some "theme.token.colorPrimary" ∧
    demoJsonTd.context ≠ some "theme.token" := by
  decide

/-- C5 (amended): every declarative-extractor definition comes from an
accepted string- or number-valued key, is stored with
`sourceKind = json`, position `(0,0)`, and context = the dotted path of
keys from the document root *down to and including the key itself*. -/
theorem c5_amended_json_extractor_shape (uri : String) (j : Json) (k : String)
    (d : TokenData) (h : (k, d) ∈ extractFromJson uri (some j)) :
    ∃ pre v, JsonPathTo j (pre ++ [k]) v ∧ isStrOrNum v = true ∧
      acceptedTokenName k = true ∧ d.source = .json ∧ d.position = ⟨0, 0⟩ ∧
      d.uri = uri ∧ d.value = jsonStringify v ∧
      d.context = some (joinSep "." (pre ++ [k])) := by
  obtain ⟨pre, v, hp, hs, ha, hd⟩ :=
    collectTokens_mem_spec uri j [] k d (by simpa [extractFromJson] using h)
  subst hd
  exact ⟨pre, v, hp, hs, ha, rfl, rfl, rfl, rfl, by simp⟩

/-- C5 witness: the amended shape applied to the demo document. -/
theorem c5_amended_json_extractor_shape_witness :
    (("colorPrimary", demoJsonTd) ∈ extractFromJson "root/theme.json" (some demoJsonDoc)) ∧
    ∃ pre v, JsonPathTo demoJsonDoc (pre ++ ["colorPrimary"]) v ∧ isStrOrNum v = true ∧
      acceptedTokenName "colorPrimary" = true ∧ demoJsonTd.source = .json ∧
      demoJsonTd.position = ⟨0, 0⟩ ∧ demoJsonTd.uri = "root/theme.json" ∧
      demoJsonTd.value = jsonStringify v ∧
      demoJsonTd.context = some (joinSep "." (pre ++ ["colorPrimary"])) :=
  ⟨by decide,
   c5_amended_json_extractor_shape "root/theme.json" demoJsonDoc "colorPrimary"
     demoJsonTd (by decide)⟩

/-- C6: file enumeration returns exactly the cleanly-reachable files
(no path through a directory whose name is in the ignore set, at any
depth), every returned path has a supported extension, every definition
the scan indexes comes from a cleanly-reachable file, and concretely a
`colorIgnored` definition inside `node_modules` never reaches the index
while its sibling `colorPrimary` does. -/
theorem c6_ignored_dirs_never_indexed :
    (∀ (dir : String) (entries : List FsEntry) (p : String),
        p ∈ findAllFiles dir entries ↔ CleanFile dir entries p) ∧
    (∀ (dir : String) (entries : List FsEntry) (p : String),
        p ∈ findAllFiles dir entries → extSupported p = true) ∧
    (∀ (root : String) (entries : List FsEntry) (d : TokenData),
        d ∈ idxDatas (scanAndIndexTokens root entries) → CleanFile root entries d.uri) ∧
    (idxGet (scanAndIndexTokens "root" demoWorkspace6) "colorIgnored" = none ∧
     idxGet (scanAndIndexTokens "root" demoWorkspace6) "colorPrimary" ≠ none) := by
  have hiff : ∀ (dir : String) (entries : List FsEntry) (p : String),
      p ∈ findAllFiles dir entries ↔ CleanFile dir entries p := by
    intro dir entries p
    constructor
    · intro h
      simp only [findAllFiles, List.mem_map] at h
      obtain ⟨pc, hpc, hp⟩ := h
      subst hp
      exact findAllFilesC_clean dir entries pc.1 pc.2 (by simpa using hpc)
    · intro h
      obtain ⟨c, hc⟩ := clean_mem_findAllFilesC h
      simp only [findAllFiles, List.mem_map]
      exact ⟨(p, c), hc, rfl⟩
  refine ⟨hiff, ?_, ?_, by decide, by decide⟩
  · intro dir entries p h
    exact ((hiff dir entries p).mp h).extSupported
  · intro root entries d h
    obtain ⟨pc, hpc, k, hk⟩ := mem_idxDatas_scanFiles (by simpa [scanAndIndexTokens] using h)
    rw [fileAdds_mem_uri hk]
    exact findAllFilesC_clean root entries pc.1 pc.2 hpc

/-- C6 witness: the provenance conjunct applied to a concrete indexed
definition of the extended demo workspace. -/
theorem c6_ignored_dirs_never_indexed_witness :
    (demoCfgTd ∈ idxDatas (scanAndIndexTokens "root" demoWorkspace6)) ∧
    CleanFile "root" demoWorkspace6 demoCfgTd.uri :=
  ⟨by decide,
   c6_ignored_dirs_never_indexed.2.2.1 "root" demoWorkspace6 demoCfgTd (by decide)⟩

/-- C8: local chain resolution: when the requesting file declares the
chain's root with an object-literal initializer (the last such
declaration wins), walking the chain key by key through object literals
to a string or numeric literal yields that literal's text; a failed step
(or a missing root declaration) yields `null` — a local failure, not an
error — so the query can proceed to the workspace fallback. -/
theorem c8_local_chain_resolution :
    (∀ (f : TsFile) (root : String) (rest : List String) (obj : Expr) (t r : String),
        (varDeclObjInits f root).getLast? = some obj →
        walkChain obj rest = some (.stringLit t r) →
        resolveChainValue f (root :: rest) = some t) ∧
    (∀ (f : TsFile) (root : String) (rest : List String) (obj : Expr) (t r : String),
        (varDeclObjInits f root).getLast? = some obj →
        walkChain obj rest = some (.numericLit t r) →
        resolveChainValue f (root :: rest) = some t) ∧
    (∀ (f : TsFile) (root : String) (rest : List String) (obj : Expr),
        (varDeclObjInits f root).getLast? = some obj →
        walkChain obj rest = none →
        resolveChainValue f (root :: rest) = none) ∧
    (∀ (f : TsFile) (root : String) (rest : List String),
        (varDeclObjInits f root).getLast? = none →
        resolveChainValue f (root :: rest) = none) := by
  refine ⟨?_, ?_, ?_, ?_⟩
  · intro f root rest obj t r hroot hwalk
    simp [resolveChainValue, hroot, resolveObjectValue, hwalk]
  · intro f root rest obj t r hroot hwalk
    simp [resolveChainValue, hroot, resolveObjectValue, hwalk]
  · intro f root rest obj hroot hwalk
    simp [resolveChainValue, hroot, resolveObjectValue, hwalk]
  · intro f root rest hroot
    simp [resolveChainValue, hroot]

/-- C8 witness: `theme.token.colorPrimary` resolved against
`const theme = { token: { colorPrimary: '#1890ff' } }`. -/
theorem c8_local_chain_resolution_witness :
    ((varDeclObjInits demoChainFile "theme").getLast? = some demoThemeObj) ∧
    (walkChain demoThemeObj ["token", "colorPrimary"] =
      some (.stringLit "#1890ff" "'#1890ff'")) ∧
    resolveChainValue demoChainFile ["theme", "token", "colorPrimary"] = some "#1890ff" :=
  ⟨rfl, rfl,
   c8_local_chain_resolution.1 demoChainFile "theme" ["token", "colorPrimary"]
     demoThemeObj "#1890ff" "'#1890ff'" rfl rfl⟩

/-- C10: `getWordAtPosition` is a total function that returns the unique
maximal `[\w-]+` run on the addressed line whose inclusive span
`[start, start + length]` contains the cursor (so a cursor one column
past a word's last character still returns it), and the empty string
when no run contains the cursor; with the empty word (and no token
property at the cursor, and no empty-name index entry — which no
extractor can produce) the definition and hover handlers answer with the
empty result rather than an error. -/
theorem c10_get_word_at_position :
    (∀ (line : String) (ch s : Nat) (w : String),
        (s, w) ∈ wordRuns line.toList 0 → s ≤ ch → ch ≤ s + w.length →
        getWordAtPosition line ch = w) ∧
    (∀ (line : String) (s : Nat) (w : String), (s, w) ∈ wordRuns line.toList 0 →
        w.data ≠ [] ∧ w.data = (line.toList.drop s).takeWhile isWordChar ∧
        (s = 0 ∨ ∃ c', line.toList.get? (s - 1) = some c' ∧ isWordChar c' = false)) ∧
    (∀ (line : String) (ch : Nat) (a b : Nat × String),
        a ∈ wordRuns line.toList 0 → b ∈ wordRuns line.toList 0 →
        a.1 ≤ ch ∧ ch ≤ a.1 + a.2.length → b.1 ≤ ch ∧ ch ≤ b.1 + b.2.length →
        a = b) ∧
    (∀ (line : String) (ch : Nat),
        (∀ sw ∈ wordRuns line.toList 0, ¬(sw.1 ≤ ch ∧ ch ≤ sw.1 + sw.2.length)) →
        getWordAtPosition line ch = "") ∧
    (∀ (line : String) (s : Nat) (w : String), (s, w) ∈ wordRuns line.toList 0 →
        getWordAtPosition line (s + w.length) = w) ∧
    (∀ (st : ServerState) (d : DocModel) (pos : Pos),
        getWordAtPosition (lineAt d.lines pos.line) pos.character = "" →
        getTokenPropertyAtPosition (lineAt d.lines pos.line) pos.character = none →
        idxGet st.tokenIndex "" = none →
        onDefinition st (some d) pos = []) ∧
    (∀ (st : ServerState) (d : DocModel) (uri : String) (pos : Pos),
        getWordAtPosition (lineAt d.lines pos.line) pos.character = "" →
        getTokenPropertyAtPosition (lineAt d.lines pos.line) pos.character = none →
        resolveFullTokenValueAtPosition d.ast "" (offsetOfPos d.lines pos) = none →
        idxGet st.tokenIndex "" = none →
        onHover st (some d) uri pos = none) := by
  refine ⟨fun line ch s w hm hle hge => getWordAtPosition_of_mem hm hle hge,
    ?_, ?_, ?_, ?_, ?_, ?_⟩
  · intro line s w hm
    obtain ⟨j, hsj, hwd, hne, hb⟩ := wordRuns_sound line.toList 0 s w hm
    have hjs : j = s := by omega
    subst hjs
    exact ⟨hne, hwd, hb⟩
  · intro line ch a b ha hb hca hcb
    exact wordRuns_unique_containing ha hb hca hcb
  · intro line ch hno
    have hnone : (wordRuns line.toList 0).find? (fun sw =>
        decide (sw.1 ≤ ch) && decide (ch ≤ sw.1 + sw.2.length)) = none := by
      rw [List.find?_eq_none]
      intro x hx
      have := hno x hx
      simpa using this
    simp only [getWordAtPosition, hnone]
  · intro line s w hm
    exact getWordAtPosition_of_mem hm (by omega) (by omega)
  · intro st d pos hword htp hidx
    cases hinit : st.isInitialized with
    | false => simp [onDefinition, hinit]
    | true => simp [onDefinition, hinit, searchTermAt, hword, htp, hidx]
  · intro st d uri pos hword htp hres hidx
    cases hinit : st.isInitialized with
    | false => simp [onHover, hinit]
    | true => simp [onHover, hinit, hword, htp, hres, hidx]

/-- C10 witness: the inclusive-right-edge conjunct on the line `ab` — the
cursor at column 2 (one past the word) still yields `ab`. -/
theorem c10_get_word_at_position_witness :
    ((0, ("ab" : String)) ∈ wordRuns ("ab" : String).toList 0) ∧
    getWordAtPosition "ab" 2 = "ab" := by
  have hruns : wordRuns ['a', 'b'] 0 = [(0, "ab")] := by
    rw [wordRuns.eq_def]
    simp only [show isWordChar 'a' = true from rfl,
      show List.takeWhile isWordChar ['b'] = ['b'] from rfl, if_true]
    rw [wordRuns.eq_def]
    simp
  have hm : ((0 : Nat), ("ab" : String)) ∈ wordRuns ("ab" : String).toList 0 := by
    rw [show ("ab" : String).toList = ['a', 'b'] from rfl, hruns]
    simp
  exact ⟨hm, by
    have h := c10_get_word_at_position.2.2.2.2.1 "ab" 0 "ab" hm
    simpa using h⟩

/-- C9: the style extractor records, for every line, exactly the
occurrences of `@` followed by a nonempty `[\w-]+` run: soundness (every
recorded definition has `sourceKind = css`, value = the identifier text,
and the exact zero-based line and `@` column, with the identifier the
maximal word run there) and completeness (every such occurrence —
including repeats and usage sites — is recorded). -/
theorem c9_style_variable_mentions :
    (∀ (uri content k : String) (d : TokenData),
        (k, d) ∈ extractFromCssLike uri content →
        d.uri = uri ∧ d.source = .css ∧ d.value = k ∧ d.context = none ∧ k.data ≠ [] ∧
        ∃ line, (splitOnChar '\n' content).get? d.position.line = some line ∧
          line.toList.get? d.position.character = some '@' ∧
          k.data = (line.toList.drop (d.position.character + 1)).takeWhile isWordChar) ∧
    (∀ (uri content : String) (lineIdx j : Nat) (line : String),
        (splitOnChar '\n' content).get? lineIdx = some line →
        line.toList.get? j = some '@' →
        (line.toList.drop (j + 1)).takeWhile isWordChar ≠ [] →
        (String.mk ((line.toList.drop (j + 1)).takeWhile isWordChar),
          TokenData.mk uri (String.mk ((line.toList.drop (j + 1)).takeWhile isWordChar))
            ⟨lineIdx, j⟩ .css none) ∈ extractFromCssLike uri content) := by
  constructor
  · intro uri content k d h
    obtain ⟨i, line, col, henum, hm, hd⟩ := extractFromCssLike_mem h
    obtain ⟨j, hcol, hat, hne, htok⟩ := cssMatches_sound line.toList 0 col k hm
    have hj : col = j := by omega
    subst hj
    subst hd
    refine ⟨rfl, rfl, rfl, rfl, hne, line, ?_, hat, htok⟩
    exact List.mk_mem_enum_iff_get?.mp henum
  · intro uri content lineIdx j line hline hat hne
    have hcm := cssMatches_complete line.toList 0 j hat hne
    simp only [extractFromCssLike, List.mem_flatMap, List.mem_map]
    exact ⟨(lineIdx, line), List.mk_mem_enum_iff_get?.mpr hline,
      (j, String.mk ((line.toList.drop (j + 1)).takeWhile isWordChar)),
      by simpa using hcm, rfl⟩

/-- C9 witness: the completeness conjunct applied at the line `@ab`. -/
theorem c9_style_variable_mentions_witness :
    ((splitOnChar '\n' "@ab").get? 0 = some "@ab") ∧
    (("@ab" : String).toList.get? 0 = some '@') ∧
    ((("@ab" : String).toList.drop 1).takeWhile isWordChar ≠ []) ∧
    (("ab", TokenData.mk "s.less" "ab" ⟨0, 0⟩ .css none) ∈
      extractFromCssLike "s.less" "@ab") := by
  refine ⟨rfl, rfl, by decide, ?_⟩
  have h := c9_style_variable_mentions.2 "s.less" "@ab" 0 0 "@ab" rfl rfl (by decide)
  simpa using h

/-- C7: a malformed declarative document contributes exactly zero
definitions (and raises nothing — the extractor is total), and a scan
over a file list containing such a file indexes exactly what the scan
without it indexes: every other valid file is still processed. -/
theorem c7_malformed_json_isolated :
    (∀ uri, extractFromJson uri none = []) ∧
    (∀ (pre post : List (String × FileContent)) (badPath : String) (c : FileContent),
        strEndsWith badPath ".json" = true → isScriptPath badPath = false →
        c.jsonParsed = none →
        scanFiles (pre ++ (badPath, c) :: post) = scanFiles (pre ++ post)) := by
  refine ⟨fun _ => rfl, ?_⟩
  intro pre post badPath c hjson hscript hparse
  have hadds : fileAdds badPath c = [] := by
    simp [fileAdds, hscript, hjson, extractFromJson, hparse]
  unfold scanFiles
  rw [List.foldl_append, List.foldl_append, List.foldl_cons]
  simp [hadds, addAll]

/-- C7 witness: dropping a malformed `broken.json` from a concrete scan
changes nothing; in particular the valid files' definitions survive. -/
theorem c7_malformed_json_isolated_witness :
    strEndsWith "root/broken.json" ".json" = true ∧
    isScriptPath "root/broken.json" = false ∧
    (FileContent.mk "" none []).jsonParsed = none ∧
    scanFiles ([("root/App.tsx", demoAppTsx)] ++
        ("root/broken.json", FileContent.mk "" none []) ::
        [("root/theme.json", demoThemeJson)]) =
      scanFiles ([("root/App.tsx", demoAppTsx)] ++ [("root/theme.json", demoThemeJson)]) :=
  ⟨by decide, by decide, rfl,
   c7_malformed_json_isolated.2 [("root/App.tsx", demoAppTsx)]
     [("root/theme.json", demoThemeJson)] "root/broken.json"
     (FileContent.mk "" none []) (by decide) (by decide) rfl⟩

end AntdLsp
